import Mathlib

set_option maxRecDepth 8192

/-!
Shallow embedding of the YouTube-URL validation subsystem
(`src/utils/validators.py` of the ytVideoSummarizeAzureFunctions repository)
together with the fragments of the Python standard library it calls
(`urllib.parse.urlparse`, `parse_qs`, `urlencode`, `urlunparse`, `str.strip`,
`str.lower`, substring tests and `re` matches).

Strings are modelled as `List Char` internally (Python strings are sequences
of code points); the public entry point `validate` takes and returns `String`.

Modelling notes, recorded once here:
* `str.lower` is modelled ASCII-only (`lowerAscii`).  The only places the
  source lower-cases are the malicious-pattern scan and the host comparison;
  every pattern and every allow-listed host consists of ASCII characters
  none of which ('k' is absent) can arise from lower-casing a non-ASCII
  code point, so the ASCII model is observationally equivalent there.
* `urllib.parse.urlsplit` is modelled per CPython: tab/CR/LF characters are
  removed, the scheme is recognised before the first ':' when it starts with
  an ASCII letter and uses only scheme characters, the netloc runs from '//'
  to the first of '/', '?', '#', a mismatched-bracket netloc raises, the
  fragment is split at the first '#' and then the query at the first '?';
  `urlparse` additionally splits `;params` from the last path segment.
* Python's `re` anchors `$` either at the end of the string or just before a
  single trailing newline; the models of `VIDEO_ID_PATTERN.match` and of the
  safe-value check (`matchVideoId`, `matchSafeVal`) reproduce this.
* percent-decoding (`unquote`) decodes '%XX' hex pairs to bytes and decodes
  byte runs as UTF-8 with replacement characters for invalid sequences;
  encoding (`quote_plus`) keeps `[A-Za-z0-9_.~-]`, turns ' ' into '+'
  and percent-encodes the UTF-8 bytes of everything else.
-/

/-! ## Python character predicates -/

/-- The code points stripped by Python `str.strip()` (i.e. `str.isspace`):
space, the ASCII control whitespace 9-13 and 28-31, NEL, NBSP, OGHAM SPACE
MARK, the U+2000-U+200A spaces, LS, PS, NNBSP, MMSP and IDEOGRAPHIC SPACE. -/
def pyIsSpace (c : Char) : Bool :=
  c.toNat = 32 || (9 <= c.toNat && c.toNat <= 13) || (28 <= c.toNat && c.toNat <= 31) ||
  c.toNat = 133 || c.toNat = 160 || c.toNat = 5760 ||
  (8192 <= c.toNat && c.toNat <= 8202) || c.toNat = 8232 || c.toNat = 8233 ||
  c.toNat = 8239 || c.toNat = 8287 || c.toNat = 12288

def isAsciiAlpha (c : Char) : Bool :=
  (97 <= c.toNat && c.toNat <= 122) || (65 <= c.toNat && c.toNat <= 90)

def isAsciiDigit (c : Char) : Bool :=
  48 <= c.toNat && c.toNat <= 57

/-- ASCII-only `str.lower` (see the modelling notes above). -/
def lowerAscii (c : Char) : Char :=
  if 65 <= c.toNat && c.toNat <= 90 then Char.ofNat (c.toNat + 32) else c

def pyLowerL (l : List Char) : List Char := l.map lowerAscii

/-- The character class `[a-zA-Z0-9_-]` of `VIDEO_ID_PATTERN` and of the
query-value check in `validators.py`. -/
def safeChar (c : Char) : Bool :=
  isAsciiAlpha c || isAsciiDigit c || c.toNat = 95 || c.toNat = 45

/-- `scheme_chars` of `urllib.parse`. -/
def isSchemeChar (c : Char) : Bool :=
  isAsciiAlpha c || isAsciiDigit c || c.toNat = 43 || c.toNat = 45 || c.toNat = 46

def isHexDigit (c : Char) : Bool :=
  isAsciiDigit c || (97 <= c.toNat && c.toNat <= 102) || (65 <= c.toNat && c.toNat <= 70)

def hexVal (c : Char) : Nat :=
  if isAsciiDigit c then c.toNat - 48
  else if 97 <= c.toNat && c.toNat <= 102 then c.toNat - 87
  else c.toNat - 55

/-! ## Python string helpers on `List Char` -/

/-- Remove trailing characters satisfying `p`. -/
def dropTrail (p : Char → Bool) (l : List Char) : List Char :=
  (l.reverse.dropWhile p).reverse

/-- Python `str.strip()` (both ends). -/
def trimL (l : List Char) : List Char :=
  dropTrail pyIsSpace (l.dropWhile pyIsSpace)

/-- Python `str.strip('/')`. -/
def stripSlashes (l : List Char) : List Char :=
  dropTrail (fun c => c = '/') (l.dropWhile (fun c => c = '/'))

/-- Python `str.split(sep)` for a one-character separator. -/
def splitOnCharL (sep : Char) : List Char → List (List Char)
  | [] => [[]]
  | c :: rest =>
    if c = sep then [] :: splitOnCharL sep rest
    else
      match splitOnCharL sep rest with
      | [] => [[c]]
      | h :: t => (c :: h) :: t

/-- The part of `l` before the first occurrence of `sep` (all of `l` when
`sep` does not occur): Python `l.split(sep)[0]`. -/
def splitHeadL (sep : List Char) : List Char → List Char
  | [] => []
  | c :: rest =>
    if sep.isPrefixOf (c :: rest) then [] else c :: splitHeadL sep rest

/-! ## UTF-8 and percent-coding -/

/-- The UTF-8 bytes of one code point. -/
def charUtf8 (c : Char) : List Nat :=
  let n := c.toNat
  if n < 0x80 then [n]
  else if n < 0x800 then [0xc0 + n / 0x40, 0x80 + n % 0x40]
  else if n < 0x10000 then
    [0xe0 + n / 0x1000, 0x80 + (n / 0x40) % 0x40, 0x80 + n % 0x40]
  else
    [0xf0 + n / 0x40000, 0x80 + (n / 0x1000) % 0x40, 0x80 + (n / 0x40) % 0x40,
      0x80 + n % 0x40]

def isCont (b : Nat) : Bool := 0x80 ≤ b && b ≤ 0xbf

/-- Continuation-byte range check for the second byte of a three-byte
sequence (the `E0`/`ED` special cases of UTF-8). -/
def cont2ok (b b2 : Nat) : Bool :=
  if b = 0xe0 then 0xa0 ≤ b2 && b2 ≤ 0xbf
  else if b = 0xed then 0x80 ≤ b2 && b2 ≤ 0x9f
  else isCont b2

/-- Continuation-byte range check for the second byte of a four-byte
sequence (the `F0`/`F4` special cases of UTF-8). -/
def cont3ok (b b2 : Nat) : Bool :=
  if b = 0xf0 then 0x90 ≤ b2 && b2 ≤ 0xbf
  else if b = 0xf4 then 0x80 ≤ b2 && b2 ≤ 0x8f
  else isCont b2

def replChar : Char := '\ufffd'

/-- Lead-byte step of the streaming UTF-8 decoder: emitted characters, the
number of continuation bytes still needed, the partial code point, and the
admissible range for the next continuation byte. -/
def u8lead (b : Nat) : List Char × Nat × Nat × Nat × Nat :=
  if b < 0x80 then ([Char.ofNat b], 0, 0, 0, 0)
  else if b < 0xc2 then ([replChar], 0, 0, 0, 0)
  else if b < 0xe0 then ([], 1, b - 0xc0, 0x80, 0xbf)
  else if b = 0xe0 then ([], 2, 0, 0xa0, 0xbf)
  else if b = 0xed then ([], 2, 0xd, 0x80, 0x9f)
  else if b < 0xf0 then ([], 2, b - 0xe0, 0x80, 0xbf)
  else if b = 0xf0 then ([], 3, 0, 0x90, 0xbf)
  else if b < 0xf4 then ([], 3, b - 0xf0, 0x80, 0xbf)
  else if b = 0xf4 then ([], 3, 4, 0x80, 0x8f)
  else ([replChar], 0, 0, 0, 0)

/-- Streaming UTF-8 decoding with replacement characters (the state is as in
`u8lead`); a failed continuation byte emits one replacement character and is
reprocessed as a lead byte, matching CPython's
`bytes.decode('utf-8', errors='replace')`. -/
def utf8drAux : Nat → Nat → Nat → Nat → List Nat → List Char
  | needed, _, _, _, [] => if needed = 0 then [] else [replChar]
  | needed, cp, lo, hi, b :: bs =>
    if needed = 0 then
      (u8lead b).1 ++ utf8drAux (u8lead b).2.1 (u8lead b).2.2.1 (u8lead b).2.2.2.1
        (u8lead b).2.2.2.2 bs
    else if lo ≤ b ∧ b ≤ hi then
      if needed = 1 then
        Char.ofNat (cp * 0x40 + (b - 0x80)) :: utf8drAux 0 0 0 0 bs
      else utf8drAux (needed - 1) (cp * 0x40 + (b - 0x80)) 0x80 0xbf bs
    else
      replChar :: ((u8lead b).1 ++ utf8drAux (u8lead b).2.1 (u8lead b).2.2.1
        (u8lead b).2.2.2.1 (u8lead b).2.2.2.2 bs)

def utf8dr (bs : List Nat) : List Char := utf8drAux 0 0 0 0 bs

/-- One step of `urllib.parse.unquote`: each '%' followed by two hex digits
becomes a byte, other ASCII characters become their byte, non-ASCII
characters pass through. -/
def pdAux : List Char → List (Nat ⊕ Char)
  | [] => []
  | '%' :: a :: b :: rest2 =>
    if isHexDigit a && isHexDigit b then
      Sum.inl (hexVal a * 16 + hexVal b) :: pdAux rest2
    else Sum.inl 37 :: pdAux (a :: b :: rest2)
  | ['%', a] => Sum.inl 37 :: pdAux [a]
  | ['%'] => [Sum.inl 37]
  | c :: rest =>
    if c.toNat < 0x80 then Sum.inl c.toNat :: pdAux rest
    else Sum.inr c :: pdAux rest

/-- Flush-and-decode: maximal byte runs are decoded as UTF-8 with
replacement, pass-through characters are kept. -/
def regroupAux : List Nat → List (Nat ⊕ Char) → List Char
  | acc, [] => utf8dr acc.reverse
  | acc, Sum.inl b :: rest => regroupAux (b :: acc) rest
  | acc, Sum.inr c :: rest => utf8dr acc.reverse ++ c :: regroupAux [] rest

def plusToSpace (c : Char) : Char := if c = '+' then ' ' else c

/-- `urllib.parse.unquote_plus` with `errors='replace'`, as used by
`parse_qsl` ('+' to space, then percent-decode). -/
def pyUnquotePlus (l : List Char) : List Char :=
  regroupAux [] (pdAux (l.map plusToSpace))

def hexDigU (n : Nat) : Char :=
  if n < 10 then Char.ofNat (48 + n) else Char.ofNat (55 + n)

/-- The characters `quote` never encodes (`_ALWAYS_SAFE`, with the default
`safe=''` of `urlencode`). -/
def alwaysSafeChar (c : Char) : Bool :=
  isAsciiAlpha c || isAsciiDigit c || c = '_' || c = '.' || c = '-' || c = '~'

/-- `urllib.parse.quote_plus` with `safe=''`. -/
def quotePlusL (l : List Char) : List Char :=
  l.flatMap fun c =>
    if alwaysSafeChar c then [c]
    else if c = ' ' then ['+']
    else (charUtf8 c).flatMap fun b => ['%', hexDigU (b / 16), hexDigU (b % 16)]

/-! ## `urllib.parse.urlparse` -/

structure PyUrl where
  scheme : List Char
  netloc : List Char
  path : List Char
  pparams : List Char
  query : List Char
  fragment : List Char
deriving DecidableEq, Repr

/-- Split at the first ':' of the candidate scheme, returning the part
before it and the part after it. -/
def findColonSplit : List Char → Option (List Char × List Char)
  | [] => none
  | c :: rest =>
    if c = ':' then some ([], rest)
    else (findColonSplit rest).map fun p => (c :: p.1, p.2)

/-- Scheme recognition of `urlsplit`: the text before the first ':' is a
scheme when it is non-empty, starts with an ASCII letter and uses only
scheme characters; it is returned lower-cased. -/
def splitScheme (l : List Char) : List Char × List Char :=
  match findColonSplit l with
  | some (p0 :: pre, rest) =>
    if isAsciiAlpha p0 && (p0 :: pre).all isSchemeChar then
      ((p0 :: pre).map lowerAscii, rest)
    else ([], l)
  | some ([], _) => ([], l)
  | none => ([], l)

def isNetDelim (c : Char) : Bool := c = '/' || c = '?' || c = '#'

/-- `_splitparams`: split `;params` from the last path segment. -/
def splitParams (l : List Char) : List Char × List Char :=
  if l.contains '/' then
    let seg := (l.reverse.takeWhile fun c => c ≠ '/').reverse
    if seg.contains ';' then
      (l.take (l.length - seg.length) ++ seg.takeWhile (fun c => c ≠ ';'),
        (seg.dropWhile fun c => c ≠ ';').tail)
    else (l, [])
  else (l.takeWhile (fun c => c ≠ ';'), (l.dropWhile fun c => c ≠ ';').tail)

/-- `urllib.parse.urlsplit` (see the modelling notes). -/
def pyUrlsplit (l0 : List Char) : Except (List Char) PyUrl :=
  let l := l0.filter fun c => !(c = '\t' || c = '\r' || c = '\n')
  let sr := splitScheme l
  let scheme := sr.1
  let rest := sr.2
  let nr :=
    if rest.take 2 = ['/', '/'] then
      ((rest.drop 2).takeWhile (fun c => !isNetDelim c),
        (rest.drop 2).dropWhile (fun c => !isNetDelim c))
    else ([], rest)
  let netloc := nr.1
  let rest2 := nr.2
  if (netloc.contains '[' && !netloc.contains ']') ||
      (netloc.contains ']' && !netloc.contains '[') then
    Except.error "Invalid IPv6 URL".data
  else
    let beforeFrag := rest2.takeWhile fun c => c ≠ '#'
    let fragment := (rest2.dropWhile fun c => c ≠ '#').tail
    let path := beforeFrag.takeWhile fun c => c ≠ '?'
    let query := (beforeFrag.dropWhile fun c => c ≠ '?').tail
    Except.ok ⟨scheme, netloc, path, [], query, fragment⟩

/-- `urllib.parse.urlparse` (adds the `;params` split). -/
def pyUrlparseL (l : List Char) : Except (List Char) PyUrl :=
  match pyUrlsplit l with
  | Except.error e => Except.error e
  | Except.ok u =>
    if u.path.contains ';' then
      let pp := splitParams u.path
      Except.ok { u with path := pp.1, pparams := pp.2 }
    else Except.ok u

/-- `urllib.parse.urlunsplit`. -/
def unsplitL (scheme netloc url query fragment : List Char) : List Char :=
  let url1 :=
    if netloc ≠ [] ∨ (url ≠ [] ∧ url.take 2 = ['/', '/']) then
      '/' :: '/' :: (netloc ++ (if url ≠ [] ∧ url.take 1 ≠ ['/'] then '/' :: url else url))
    else url
  let url2 := if scheme ≠ [] then scheme ++ ':' :: url1 else url1
  let url3 := if query ≠ [] then url2 ++ '?' :: query else url2
  if fragment ≠ [] then url3 ++ '#' :: fragment else url3

/-- `urllib.parse.urlunparse`. -/
def pyUrlunparse (scheme netloc url pparams query fragment : List Char) : List Char :=
  unsplitL scheme netloc (if pparams ≠ [] then url ++ ';' :: pparams else url) query fragment

/-! ## `urllib.parse.parse_qs` -/

/-- One field of `parse_qsl` with default arguments: split at the first '=',
skip the field when there is no '=' or the value is empty, else apply
'+'-to-space and percent-decoding to the name and the value. -/
def qslField (field : List Char) : Option (List Char × List Char) :=
  if field = [] then none
  else if field.contains '=' then
    if (field.dropWhile fun c => c ≠ '=').tail = [] then none
    else some (pyUnquotePlus (field.takeWhile fun c => c ≠ '='),
      pyUnquotePlus ((field.dropWhile fun c => c ≠ '=').tail))
  else none

def parseQsl (q : List Char) : List (List Char × List Char) :=
  if q = [] then [] else (splitOnCharL '&' q).filterMap qslField

/-- Append a value to the entry of `n`, or add a new entry at the end
(Python dict grouping of `parse_qs`). -/
def qsUpdate : List (List Char × List (List Char)) → List Char → List Char →
    List (List Char × List (List Char))
  | [], n, v => [(n, [v])]
  | (k, vs) :: rest, n, v =>
    if k = n then (k, vs ++ [v]) :: rest else (k, vs) :: qsUpdate rest n v

/-- `parse_qs(qs)`: group the `parse_qsl` pairs by name, preserving first
occurrence order of names and occurrence order of values. -/
def parseQs (q : List Char) : List (List Char × List (List Char)) :=
  (parseQsl q).foldl (fun acc p => qsUpdate acc p.1 p.2) []

/-- Association-list lookup (Python `k in d` / `d[k]`). -/
def alookup {β : Type} : List (List Char × β) → List Char → Option β
  | [], _ => none
  | (k, v) :: rest, k' => if k = k' then some v else alookup rest k'

/-- Python dict assignment `d[k] = v`: overwrite in place or append. -/
def dictInsert : List (List Char × List Char) → List Char → List Char →
    List (List Char × List Char)
  | [], k, v => [(k, v)]
  | (k', v') :: rest, k, v =>
    if k' = k then (k, v) :: rest else (k', v') :: dictInsert rest k v

/-! ## The validator (`validators.py`) -/

/-- `ALLOWED_YOUTUBE_DOMAINS` (validators.py lines 14-19). -/
def ALLOWED_YOUTUBE_DOMAINS : List (List Char) :=
  ["youtube.com".data, "www.youtube.com".data, "m.youtube.com".data, "youtu.be".data]

/-- `ALLOWED_QUERY_PARAMS` (validators.py line 25). -/
def ALLOWED_QUERY_PARAMS : List (List Char) :=
  ["v".data, "t".data, "list".data, "index".data, "start".data]

/-- `malicious_patterns` (validators.py lines 68-78), in source order. -/
def MALICIOUS_PATTERNS : List (List Char) :=
  ["../".data, "./".data, "%2e%2e".data, "%2e%2f".data, "<script".data,
    "javascript:".data, "data:".data, "file:".data, "ftp:".data]

/-- `VIDEO_ID_PATTERN.match(v)` is truthy.  The pattern is
`^[a-zA-Z0-9_-]{11}$` and Python's `$` also matches just before one
trailing newline, so a match needs exactly 11 safe characters optionally
followed by a single final newline. -/
def matchVideoId (l : List Char) : Bool :=
  let core := if l.getLast? = some '\n' then l.dropLast else l
  core.length = 11 && core.all safeChar

/-- `re.match(r'^[a-zA-Z0-9_-]+$', v)` is truthy (same `$` semantics as
`matchVideoId`). -/
def matchSafeVal (l : List Char) : Bool :=
  let core := if l.getLast? = some '\n' then l.dropLast else l
  !core.isEmpty && core.all safeChar

/-- The distinct rejection reasons of `InvalidYouTubeUrlError` raised in
`validate_youtube_url` / `validate_request_body`, in source order; payloads
carry the data interpolated into the message. -/
inductive VErr where
  | emptyUrl
  | maliciousPattern (p : List Char)
  | credentials
  | parseFail (msg : List Char)
  | notHttps
  | badDomain (d : List Char)
  | badShortPath
  | missingV
  | badEmbed
  | badPathShape
  | noVideoId
  | invalidVideoId (v : List Char)
deriving DecidableEq, Repr

/-- Line 86: `if '@' in url.split('://')[0] if '://' in url else url:` —
a conditional expression whose condition is `'://' in url`; when the
separator is absent the tested value is the string `url` itself (truthy
iff non-empty). -/
def credFlag (u : List Char) : Bool :=
  if "://".data <:+: u then (splitHeadL "://".data u).contains '@'
  else !u.isEmpty

/-- Video-identifier extraction, validators.py lines 106-140. -/
def extractVid (domain : List Char) (pu : PyUrl) : Except VErr (List Char) :=
  if domain = "youtu.be".data then
    match splitOnCharL '/' (stripSlashes pu.path) with
    | [seg] => if seg ≠ [] then Except.ok seg else Except.error VErr.badShortPath
    | _ => Except.error VErr.badShortPath
  else if "/watch".data.isPrefixOf pu.path then
    match alookup (parseQs pu.query) "v".data with
    | some (v0 :: _) => Except.ok v0
    | some [] => Except.error VErr.missingV
    | none => Except.error VErr.missingV
  else if "/embed/".data.isPrefixOf pu.path then
    match splitOnCharL '/' (stripSlashes pu.path) with
    | [a, b] =>
      if a = "embed".data ∧ b ≠ [] then Except.ok b else Except.error VErr.badEmbed
    | _ => Except.error VErr.badEmbed
  else Except.error VErr.badPathShape

/-- Query filtering, validators.py lines 152-162: keep allow-listed
parameters whose (first) value matches the safe pattern. -/
def keptParams (q : List Char) : List (List Char × List Char) :=
  if q = [] then []
  else
    (parseQs q).foldl
      (fun acc kv =>
        match kv.2 with
        | v0 :: _ =>
          if kv.1 ∈ ALLOWED_QUERY_PARAMS ∧ matchSafeVal v0 then
            dictInsert acc kv.1 v0
          else acc
        | [] => acc)
      []

/-- Python tuple comparison `(k1, v1) < (k2, v2)` restricted to pairs of
strings, via code-point lexicographic string comparison. -/
def lexLtB : List Char → List Char → Bool
  | _, [] => false
  | [], _ :: _ => true
  | a :: as, b :: bs =>
    if a.toNat < b.toNat then true
    else if b.toNat < a.toNat then false
    else lexLtB as bs

def pairLtB (x y : List Char × List Char) : Bool :=
  lexLtB x.1 y.1 || (x.1 = y.1 && lexLtB x.2 y.2)

/-- The (total) order used by `sorted(safe_params.items())`. -/
def pairLe (x y : List Char × List Char) : Prop :=
  pairLtB x y = true ∨ x = y

instance : DecidableRel pairLe := fun x y => by
  unfold pairLe; infer_instance

/-- `urlencode(sorted(safe_params.items()))`, validators.py line 168. -/
def encodeQueryL (pairs : List (List Char × List Char)) : List Char :=
  match pairs.map (fun kv => quotePlusL kv.1 ++ '=' :: quotePlusL kv.2) with
  | [] => []
  | x :: xs => x ++ xs.flatMap fun part => '&' :: part

/-- Lines 152-176: filter the query, force `v` to the validated identifier,
sort, encode and rebuild the final URL. -/
def buildCanonical (vid : List Char) (q : List Char) : List Char :=
  let pairs := List.insertionSort pairLe (dictInsert (keptParams q) "v".data vid)
  pyUrlunparse "https".data "www.youtube.com".data "/watch".data [] (encodeQueryL pairs) []

/-- `validate_youtube_url` after the strip of line 65, operating on the
stripped string. -/
def validateCore (u : List Char) : Except VErr (List Char) :=
  match MALICIOUS_PATTERNS.find? (fun p => decide (p <:+: pyLowerL u)) with
  | some p => Except.error (VErr.maliciousPattern p)
  | none =>
    if credFlag u then Except.error VErr.credentials
    else
      match pyUrlparseL u with
      | Except.error e => Except.error (VErr.parseFail e)
      | Except.ok pu =>
        if pu.scheme ≠ "https".data then Except.error VErr.notHttps
        else
          let domain := pyLowerL pu.netloc
          if domain ∈ ALLOWED_YOUTUBE_DOMAINS then
            match extractVid domain pu with
            | Except.error e => Except.error e
            | Except.ok vid =>
              if vid = [] then Except.error VErr.noVideoId
              else if !matchVideoId vid then Except.error (VErr.invalidVideoId vid)
              else Except.ok (buildCanonical vid pu.query)
          else Except.error (VErr.badDomain domain)

/-- `validate_youtube_url` (validators.py lines 28-178). -/
def validate (url : String) : Except VErr String :=
  if url.data = [] then Except.error VErr.emptyUrl
  else (validateCore (trimL url.data)).map fun l => ⟨l⟩

/-- Python `str.strip()` at `String` level. -/
def pyStrip (s : String) : String := ⟨trimL s.data⟩

/-! ## Basic facts about characters -/

theorem char_toNat_inj {a b : Char} (h : a.toNat = b.toNat) : a = b := by
  apply Char.eq_of_val_eq
  exact UInt32.toNat.inj h

theorem toNat_ofNat_lt {n : Nat} (h : n < 55296) : (Char.ofNat n).toNat = n := by
  have hv : n.isValidChar := Or.inl h
  rw [Char.ofNat, dif_pos hv]
  simp [Char.ofNatAux, Char.toNat, UInt32.toNat]

theorem pyIsSpace_false_of_range {c : Char} (h1 : 33 ≤ c.toNat) (h2 : c.toNat ≤ 132) :
    pyIsSpace c = false := by
  simp only [pyIsSpace, Bool.or_eq_false_iff, decide_eq_false_iff_not, Bool.and_eq_false_iff]
  omega

theorem pyIsSpace_lowerAscii (c : Char) : pyIsSpace (lowerAscii c) = pyIsSpace c := by
  unfold lowerAscii
  split
  · next h =>
    have hh : 65 ≤ c.toNat ∧ c.toNat ≤ 90 := by simpa using h
    have ht : (Char.ofNat (c.toNat + 32)).toNat = c.toNat + 32 :=
      toNat_ofNat_lt (by omega)
    rw [pyIsSpace_false_of_range (by rw [ht]; omega) (by rw [ht]; omega),
      pyIsSpace_false_of_range (by omega) (by omega)]
  · rfl

/-! ## Strip lemmas -/

theorem dropWhile_twice (p : Char → Bool) (l : List Char) :
    (l.dropWhile p).dropWhile p = l.dropWhile p := by
  induction l with
  | nil => rfl
  | cons c t ih =>
    by_cases h : p c
    · simp [List.dropWhile_cons, h, ih]
    · simp [List.dropWhile_cons, h]

theorem dropWhile_of_prefix {p : Char → Bool} {q m : List Char}
    (hm : m.dropWhile p = m) (hq : q <+: m) : q.dropWhile p = q := by
  cases q with
  | nil => rfl
  | cons c t =>
    obtain ⟨r, hr⟩ := hq
    subst hr
    rw [List.cons_append] at hm
    by_cases h : p c
    · rw [List.dropWhile_cons_of_pos h] at hm
      have h1 : (List.dropWhile p (t ++ r)).length ≤ (t ++ r).length :=
        (List.dropWhile_sublist p).length_le
      have h2 := congrArg List.length hm
      simp only [List.length_cons] at h2
      omega
    · rw [List.dropWhile_cons_of_neg h]

theorem dropTrail_pfx (p : Char → Bool) (l : List Char) : dropTrail p l <+: l := by
  have h : (l.reverse.dropWhile p) <:+ l.reverse := List.dropWhile_suffix p
  have := @List.reverse_suffix Char ((l.reverse.dropWhile p).reverse) l
  rw [List.reverse_reverse] at this
  exact this.mp h

theorem dropTrail_idem (p : Char → Bool) (l : List Char) :
    dropTrail p (dropTrail p l) = dropTrail p l := by
  unfold dropTrail
  rw [List.reverse_reverse, dropWhile_twice]

theorem trimL_dropWhile (l : List Char) : (trimL l).dropWhile pyIsSpace = trimL l :=
  dropWhile_of_prefix (dropWhile_twice pyIsSpace l) (dropTrail_pfx pyIsSpace _)

theorem trimL_idem (l : List Char) : trimL (trimL l) = trimL l := by
  conv_lhs => rw [trimL, trimL_dropWhile]
  rw [trimL, dropTrail_idem]

/-- C10, core form: for a string whose stripped form is non-empty, validation
of the stripped string and of the original agree. -/
theorem validate_pyStrip (s : String) (h : pyStrip s ≠ "") :
    validate (pyStrip s) = validate s := by
  have hd : (pyStrip s).data = trimL s.data := rfl
  have hne : trimL s.data ≠ [] := by
    intro he
    apply h
    show (⟨trimL s.data⟩ : String) = ⟨[]⟩
    rw [he]
  have hsne : s.data ≠ [] := by
    intro he
    apply hne
    rw [he]
    rfl
  rw [validate, validate, hd, if_neg hne, if_neg hsne, trimL_idem]

/-! ## Occurrence of whitespace-free patterns survives stripping and
commutes with lower-casing -/

theorem infix_dropWhile {p : Char → Bool} {t : List Char} (ht : t ≠ [])
    (hnp : ∀ c ∈ t, p c = false) :
    ∀ {l : List Char}, t <:+: l → t <:+: l.dropWhile p := by
  intro l h
  induction l with
  | nil =>
    rw [List.infix_nil] at h
    exact absurd h ht
  | cons c rest ih =>
    rcases List.infix_cons_iff.mp h with hpre | hinf
    · cases t with
      | nil => exact absurd rfl ht
      | cons t0 ts =>
        obtain ⟨r, hr⟩ := hpre
        have hc : t0 = c := by
          rw [List.cons_append] at hr
          exact (List.cons.injEq _ _ _ _ ▸ hr).1
        have hpc : p c = false := hc ▸ hnp t0 (List.mem_cons_self t0 ts)
        rw [List.dropWhile_cons_of_neg (by simp [hpc])]
        exact List.IsPrefix.isInfix ⟨r, hr⟩
    · by_cases hpc : p c
      · rw [List.dropWhile_cons_of_pos hpc]
        exact ih hinf
      · rw [List.dropWhile_cons_of_neg hpc]
        exact List.infix_cons hinf

theorem infix_trimL {t l : List Char} (ht : t ≠ [])
    (hnp : ∀ c ∈ t, pyIsSpace c = false) (h : t <:+: l) : t <:+: trimL l := by
  have h1 := infix_dropWhile ht hnp h
  have h2 : t.reverse <:+: (l.dropWhile pyIsSpace).reverse := h1.reverse
  have h3 := infix_dropWhile (fun he => ht (by simpa using congrArg List.reverse he))
    (fun c hc => hnp c (List.mem_reverse.mp hc)) h2
  have h4 := h3.reverse
  rwa [List.reverse_reverse] at h4

theorem dropWhile_lower (x : List Char) :
    (pyLowerL x).dropWhile pyIsSpace = pyLowerL (x.dropWhile pyIsSpace) := by
  have hf : (pyIsSpace ∘ lowerAscii) = pyIsSpace := funext pyIsSpace_lowerAscii
  unfold pyLowerL
  rw [List.dropWhile_map, hf]

theorem dropTrail_lower (x : List Char) :
    dropTrail pyIsSpace (pyLowerL x) = pyLowerL (dropTrail pyIsSpace x) := by
  show ((pyLowerL x).reverse.dropWhile pyIsSpace).reverse = _
  have h1 : (pyLowerL x).reverse = pyLowerL x.reverse := by
    unfold pyLowerL
    rw [List.map_reverse]
  rw [h1, dropWhile_lower x.reverse]
  unfold pyLowerL dropTrail
  rw [List.map_reverse]

theorem pyLowerL_trimL (l : List Char) : pyLowerL (trimL l) = trimL (pyLowerL l) := by
  unfold trimL
  rw [dropWhile_lower, dropTrail_lower]

theorem malicious_props :
    ∀ p ∈ MALICIOUS_PATTERNS, p ≠ [] ∧ ∀ c ∈ p, pyIsSpace c = false := by
  decide

/-- If some malicious pattern occurs in the lower-cased stripped input, the
validator stops with the first matching pattern, before parsing. -/
theorem validate_malicious {s : String}
    (h : ∃ p ∈ MALICIOUS_PATTERNS, p <:+: pyLowerL s.data) :
    ∃ q ∈ MALICIOUS_PATTERNS, validate s = Except.error (VErr.maliciousPattern q) := by
  obtain ⟨p, hp, hinf⟩ := h
  obtain ⟨hne, hnosp⟩ := malicious_props p hp
  have key : p <:+: pyLowerL (trimL s.data) := by
    rw [pyLowerL_trimL]
    exact infix_trimL hne hnosp hinf
  have hfind : (MALICIOUS_PATTERNS.find? fun q =>
      decide (q <:+: pyLowerL (trimL s.data))).isSome := by
    rw [List.find?_isSome]
    exact ⟨p, hp, by simpa using key⟩
  obtain ⟨q, hq⟩ := Option.isSome_iff_exists.mp hfind
  have hqmem : q ∈ MALICIOUS_PATTERNS := List.mem_of_find?_eq_some hq
  refine ⟨q, hqmem, ?_⟩
  have hsne : s.data ≠ [] := by
    intro he
    rw [he] at hinf
    exact hne (List.infix_nil.mp hinf)
  rw [validate, if_neg hsne, validateCore, hq]
  rfl

/-! ## Scheme and domain rejection -/

instance {ε α : Type} [DecidableEq ε] [DecidableEq α] : DecidableEq (Except ε α) := fun x y =>
  match x, y with
  | Except.error a, Except.error b => decidable_of_iff (a = b) (by simp)
  | Except.error _, Except.ok _ => isFalse fun h => Except.noConfusion h
  | Except.ok _, Except.error _ => isFalse fun h => Except.noConfusion h
  | Except.ok a, Except.ok b => decidable_of_iff (a = b) (by simp)

theorem parse_empty : pyUrlparseL (trimL []) = Except.ok ⟨[], [], [], [], [], []⟩ := rfl

/-- C6 (amended), core form: a non-empty input passing the pre-parse checks
whose stripped form parses with a scheme other than https is rejected with
the HTTPS-only reason. -/
theorem validate_notHttps (s : String) (pu : PyUrl)
    (h0 : s.data ≠ [])
    (hfind : (MALICIOUS_PATTERNS.find? fun q => decide (q <:+: pyLowerL (trimL s.data))) = none)
    (hcred : credFlag (trimL s.data) = false)
    (hparse : pyUrlparseL (trimL s.data) = Except.ok pu)
    (hscheme : pu.scheme ≠ "https".data) :
    validate s = Except.error VErr.notHttps := by
  rw [validate, if_neg h0]
  simp only [validateCore, hfind, hcred, hparse]
  rw [if_pos hscheme]
  rfl

/-- C5 (amended), core form: if the stripped input parses with scheme https
and a host outside the allow-list then validation fails; when the pre-parse
checks also pass, the rejection names the lower-cased disallowed domain. -/
theorem validate_badDomain (s : String) (pu : PyUrl)
    (hparse : pyUrlparseL (trimL s.data) = Except.ok pu)
    (hscheme : pu.scheme = "https".data)
    (hdom : pyLowerL pu.netloc ∉ ALLOWED_YOUTUBE_DOMAINS) :
    (∃ e, validate s = Except.error e) ∧
    ((MALICIOUS_PATTERNS.find? fun q => decide (q <:+: pyLowerL (trimL s.data))) = none →
      credFlag (trimL s.data) = false →
      validate s = Except.error (VErr.badDomain (pyLowerL pu.netloc))) := by
  have key : ∀ _ : (MALICIOUS_PATTERNS.find? fun q =>
        decide (q <:+: pyLowerL (trimL s.data))) = none,
      credFlag (trimL s.data) = false →
      validate s = Except.error (VErr.badDomain (pyLowerL pu.netloc)) := by
    intro hfind hcred
    have h0 : s.data ≠ [] := by
      intro he
      rw [he, parse_empty] at hparse
      have h2 : pu = ⟨[], [], [], [], [], []⟩ := by
        injection hparse with h3
        exact h3.symm
      rw [h2] at hscheme
      exact absurd hscheme (by decide)
    rw [validate, if_neg h0]
    simp only [validateCore, hfind, hcred, hparse]
    have hs2 : ¬(pu.scheme ≠ "https".data) := by simp [hscheme]
    rw [if_neg hs2, if_neg hdom]
    rfl
  refine ⟨?_, key⟩
  by_cases h0 : s.data = []
  · exact ⟨VErr.emptyUrl, by rw [validate, if_pos h0]⟩
  · cases hf : (MALICIOUS_PATTERNS.find? fun q =>
        decide (q <:+: pyLowerL (trimL s.data))) with
    | some p =>
      exact ⟨VErr.maliciousPattern p, by rw [validate, if_neg h0, validateCore, hf]; rfl⟩
    | none =>
      cases hc : credFlag (trimL s.data) with
      | true =>
        refine ⟨VErr.credentials, ?_⟩
        rw [validate, if_neg h0]
        simp only [validateCore, hf, hc]
        rfl
      | false => exact ⟨_, key hf hc⟩

/-! ## Extraction stage -/

theorem validate_eq_extract (s : String) (pu : PyUrl)
    (h0 : s.data ≠ [])
    (hfind : (MALICIOUS_PATTERNS.find? fun q => decide (q <:+: pyLowerL (trimL s.data))) = none)
    (hcred : credFlag (trimL s.data) = false)
    (hparse : pyUrlparseL (trimL s.data) = Except.ok pu)
    (hscheme : pu.scheme = "https".data)
    (hdom : pyLowerL pu.netloc ∈ ALLOWED_YOUTUBE_DOMAINS) :
    validate s = (match extractVid (pyLowerL pu.netloc) pu with
      | Except.error e => Except.error e
      | Except.ok vid =>
        if vid = [] then Except.error VErr.noVideoId
        else if !matchVideoId vid then Except.error (VErr.invalidVideoId vid)
        else Except.ok (buildCanonical vid pu.query)).map (fun l => (⟨l⟩ : String)) := by
  rw [validate, if_neg h0]
  simp only [validateCore, hfind, hcred, hparse]
  have hs2 : ¬(pu.scheme ≠ "https".data) := by simp [hscheme]
  rw [if_neg hs2, if_pos hdom]
  rfl

theorem u8lead_emit_or_pend (b : Nat) : (u8lead b).1 ≠ [] ∨ (u8lead b).2.1 ≠ 0 := by
  unfold u8lead
  repeat' split
  all_goals simp

theorem utf8drAux_ne_nil :
    ∀ (bs : List Nat) (needed cp lo hi : Nat), needed ≠ 0 ∨ bs ≠ [] →
    utf8drAux needed cp lo hi bs ≠ [] := by
  intro bs
  induction bs with
  | nil =>
    intro needed cp lo hi h
    rw [utf8drAux]
    rcases h with h | h
    · rw [if_neg h]
      simp
    · exact absurd rfl h
  | cons b t ih =>
    intro needed cp lo hi h
    rw [utf8drAux]
    split
    · rcases u8lead_emit_or_pend b with he | hp
      · simp [he]
      · intro hc
        rcases List.append_eq_nil.mp hc with ⟨_, h2⟩
        exact ih _ _ _ _ (Or.inl hp) h2
    · split
      · split
        · simp
        · next hn0 hn1 =>
          exact ih _ _ _ _ (Or.inl (by omega))
      · simp

theorem utf8dr_ne_nil : ∀ {bs : List Nat}, bs ≠ [] → utf8dr bs ≠ [] := by
  intro bs h
  exact utf8drAux_ne_nil bs 0 0 0 0 (Or.inr h)

theorem regroupAux_ne_nil :
    ∀ (t : List (Nat ⊕ Char)) (acc : List Nat), acc ≠ [] → regroupAux acc t ≠ [] := by
  intro t
  induction t with
  | nil =>
    intro acc h
    rw [regroupAux]
    exact utf8dr_ne_nil (by simpa using h)
  | cons x rest ih =>
    intro acc h
    cases x with
    | inl b => exact ih (b :: acc) (by simp)
    | inr c =>
      rw [regroupAux]
      simp

theorem pdAux_cons_ne_nil (c : Char) (t : List Char) : pdAux (c :: t) ≠ [] := by
  rw [pdAux.eq_def]
  repeat' split
  all_goals simp_all

theorem regroupAux_nil_ne_nil {m : List (Nat ⊕ Char)} (h : m ≠ []) :
    regroupAux [] m ≠ [] := by
  cases m with
  | nil => exact absurd rfl h
  | cons x xs =>
    cases x with
    | inl b => exact regroupAux_ne_nil xs [b] (by simp)
    | inr c =>
      rw [regroupAux]
      simp

theorem pyUnquotePlus_ne_nil {l : List Char} (h : l ≠ []) : pyUnquotePlus l ≠ [] := by
  unfold pyUnquotePlus
  cases l with
  | nil => exact absurd rfl h
  | cons c t =>
    rw [List.map_cons]
    exact regroupAux_nil_ne_nil (pdAux_cons_ne_nil _ _)

theorem qslField_some {field : List Char} {p : List Char × List Char}
    (h : qslField field = some p) : p.2 ≠ [] := by
  unfold qslField at h
  split at h
  · exact absurd h (by simp)
  · split at h
    · split at h
      · exact absurd h (by simp)
      · next hv =>
        injection h with h2
        rw [← h2]
        exact pyUnquotePlus_ne_nil hv
    · exact absurd h (by simp)

theorem parseQsl_vals {q : List Char} : ∀ p ∈ parseQsl q, p.2 ≠ [] := by
  intro p hp
  unfold parseQsl at hp
  split at hp
  · simp at hp
  · rw [List.mem_filterMap] at hp
    obtain ⟨field, _, hf⟩ := hp
    exact qslField_some hf

theorem qsUpdate_vals {P : List Char → Prop}
    {d : List (List Char × List (List Char))} {n v : List Char}
    (hd : ∀ kv ∈ d, ∀ w ∈ kv.2, P w) (hv : P v) :
    ∀ kv ∈ qsUpdate d n v, ∀ w ∈ kv.2, P w := by
  induction d with
  | nil =>
    intro kv hkv w hw
    simp [qsUpdate] at hkv
    rw [hkv] at hw
    simp at hw
    rwa [hw]
  | cons e rest ih =>
    intro kv hkv w hw
    rw [qsUpdate] at hkv
    split at hkv
    · next heq =>
      rcases List.mem_cons.mp hkv with h1 | h1
      · rw [h1] at hw
        simp only [List.mem_append, List.mem_singleton] at hw
        rcases hw with h2 | h2
        · exact hd e (List.mem_cons_self e rest) w h2
        · rwa [h2]
      · exact hd kv (List.mem_cons_of_mem e h1) w hw
    · rcases List.mem_cons.mp hkv with h1 | h1
      · rw [h1] at hw
        exact hd e (List.mem_cons_self e rest) w hw
      · exact ih (fun a ha => hd a (List.mem_cons_of_mem e ha)) kv h1 w hw

theorem parseQs_vals {q : List Char} : ∀ kv ∈ parseQs q, ∀ w ∈ kv.2, w ≠ [] := by
  unfold parseQs
  have main : ∀ (ps : List (List Char × List Char))
      (acc : List (List Char × List (List Char))),
      (∀ p ∈ ps, p.2 ≠ []) → (∀ kv ∈ acc, ∀ w ∈ kv.2, w ≠ []) →
      ∀ kv ∈ ps.foldl (fun a p => qsUpdate a p.1 p.2) acc, ∀ w ∈ kv.2, w ≠ [] := by
    intro ps
    induction ps with
    | nil => intro acc _ hacc; exact hacc
    | cons p rest ih =>
      intro acc hps hacc
      rw [List.foldl_cons]
      exact ih _ (fun x hx => hps x (List.mem_cons_of_mem p hx))
        (qsUpdate_vals hacc (hps p (List.mem_cons_self p rest)))
  exact main (parseQsl q) [] (parseQsl_vals) (by simp)

theorem alookup_mem {β : Type} {d : List (List Char × β)} {k : List Char} {v : β}
    (h : alookup d k = some v) : (k, v) ∈ d := by
  induction d with
  | nil => exact absurd h (by simp [alookup])
  | cons e rest ih =>
    rw [alookup] at h
    split at h
    · next heq =>
      injection h with h2
      rw [← heq, ← h2]
      exact List.mem_cons_self e rest
    · exact List.mem_cons_of_mem e (ih h)

theorem extractVid_ok_ne_nil {domain : List Char} {pu : PyUrl} {vid : List Char}
    (h : extractVid domain pu = Except.ok vid) : vid ≠ [] := by
  unfold extractVid at h
  split at h
  · split at h
    · split at h
      · next hseg =>
        injection h with h2
        rwa [← h2]
      · exact absurd h (by simp)
    · exact absurd h (by simp)
  · split at h
    · split at h
      · next v0 rest heq =>
        injection h with h2
        have hmem := alookup_mem heq
        have := @parseQs_vals pu.query _ hmem v0 (List.mem_cons_self v0 rest)
        rwa [← h2]
      · exact absurd h (by simp)
      · exact absurd h (by simp)
    · split at h
      · split at h
        · split at h
          · next hcond =>
            injection h with h2
            rw [← h2]
            exact hcond.2
          · exact absurd h (by simp)
        · exact absurd h (by simp)
      · exact absurd h (by simp)

/-! ## Video identifier check (C9) and short-link extraction (C7) -/

theorem matchVideoId_iff (vid : List Char) :
    matchVideoId vid = true ↔
      (vid.length = 11 ∧ ∀ c ∈ vid, safeChar c = true) ∨
      (vid.length = 12 ∧ vid.getLast? = some '\n' ∧
        ∀ c ∈ vid.dropLast, safeChar c = true) := by
  constructor
  · intro hm
    unfold matchVideoId at hm
    by_cases hl : vid.getLast? = some '\n'
    · rw [if_pos hl] at hm
      simp only [Bool.and_eq_true, decide_eq_true_eq, List.all_eq_true] at hm
      obtain ⟨ys, hys⟩ := List.getLast?_eq_some_iff.mp hl
      right
      refine ⟨?_, hl, hm.2⟩
      rw [hys] at hm ⊢
      rw [List.dropLast_concat] at hm
      simp [hm.1]
    · rw [if_neg hl] at hm
      simp only [Bool.and_eq_true, decide_eq_true_eq, List.all_eq_true] at hm
      exact Or.inl hm
  · intro hr
    unfold matchVideoId
    rcases hr with ⟨h11, hall⟩ | ⟨h12, hl, hall⟩
    · have hl : ¬ vid.getLast? = some '\n' := by
        intro hc
        have hmem := List.mem_of_getLast?_eq_some hc
        exact absurd (hall '\n' hmem) (by decide)
      rw [if_neg hl]
      simp only [Bool.and_eq_true, decide_eq_true_eq, List.all_eq_true]
      exact ⟨h11, hall⟩
    · rw [if_pos hl]
      obtain ⟨ys, hys⟩ := List.getLast?_eq_some_iff.mp hl
      simp only [Bool.and_eq_true, decide_eq_true_eq, List.all_eq_true]
      constructor
      · rw [hys, List.dropLast_concat]
        rw [hys] at h12
        simp at h12
        omega
      · exact hall

theorem validate_extract_ok (s : String) (pu : PyUrl) (vid : List Char)
    (h0 : s.data ≠ [])
    (hfind : (MALICIOUS_PATTERNS.find? fun q => decide (q <:+: pyLowerL (trimL s.data))) = none)
    (hcred : credFlag (trimL s.data) = false)
    (hparse : pyUrlparseL (trimL s.data) = Except.ok pu)
    (hscheme : pu.scheme = "https".data)
    (hdom : pyLowerL pu.netloc ∈ ALLOWED_YOUTUBE_DOMAINS)
    (hvid : extractVid (pyLowerL pu.netloc) pu = Except.ok vid) :
    validate s = Except.map (fun l => (⟨l⟩ : String))
      (if vid = [] then Except.error VErr.noVideoId
       else if (!matchVideoId vid) = true then Except.error (VErr.invalidVideoId vid)
       else Except.ok (buildCanonical vid pu.query)) := by
  have hstage := validate_eq_extract s pu h0 hfind hcred hparse hscheme hdom
  rw [hvid] at hstage
  exact hstage

theorem validate_extract_err (s : String) (pu : PyUrl) (e : VErr)
    (h0 : s.data ≠ [])
    (hfind : (MALICIOUS_PATTERNS.find? fun q => decide (q <:+: pyLowerL (trimL s.data))) = none)
    (hcred : credFlag (trimL s.data) = false)
    (hparse : pyUrlparseL (trimL s.data) = Except.ok pu)
    (hscheme : pu.scheme = "https".data)
    (hdom : pyLowerL pu.netloc ∈ ALLOWED_YOUTUBE_DOMAINS)
    (hvid : extractVid (pyLowerL pu.netloc) pu = Except.error e) :
    validate s = Except.error e := by
  have hstage := validate_eq_extract s pu h0 hfind hcred hparse hscheme hdom
  rw [hvid] at hstage
  exact hstage

theorem C9_stage (s : String) (pu : PyUrl) (vid : List Char)
    (h0 : s.data ≠ [])
    (hfind : (MALICIOUS_PATTERNS.find? fun q => decide (q <:+: pyLowerL (trimL s.data))) = none)
    (hcred : credFlag (trimL s.data) = false)
    (hparse : pyUrlparseL (trimL s.data) = Except.ok pu)
    (hscheme : pu.scheme = "https".data)
    (hdom : pyLowerL pu.netloc ∈ ALLOWED_YOUTUBE_DOMAINS)
    (hvid : extractVid (pyLowerL pu.netloc) pu = Except.ok vid) :
    (matchVideoId vid = false → validate s = Except.error (VErr.invalidVideoId vid)) ∧
    (matchVideoId vid = true → validate s = Except.ok ⟨buildCanonical vid pu.query⟩) := by
  have hne := extractVid_ok_ne_nil hvid
  have hok := validate_extract_ok s pu vid h0 hfind hcred hparse hscheme hdom hvid
  constructor
  · intro hm
    rw [hok, if_neg hne, hm]
    rfl
  · intro hm
    rw [hok, if_neg hne, hm]
    rfl

/-- Statement helper for C7: the short-link path shape check of the spec,
"exactly one non-empty segment", as an option-valued classifier. -/
def singleSeg (parts : List (List Char)) : Option (List Char) :=
  match parts with
  | [seg] => if seg ≠ [] then some seg else none
  | _ => none

theorem extractVid_shortlink (pu : PyUrl) :
    (∀ seg, singleSeg (splitOnCharL '/' (stripSlashes pu.path)) = some seg →
      extractVid "youtu.be".data pu = Except.ok seg) ∧
    (singleSeg (splitOnCharL '/' (stripSlashes pu.path)) = none →
      extractVid "youtu.be".data pu = Except.error VErr.badShortPath) := by
  unfold extractVid singleSeg
  rw [if_pos rfl]
  constructor
  · intro seg hs
    split at hs
    · split at hs
      · next hne2 =>
        injection hs with h2
        rw [← h2, if_pos hne2]
      · exact absurd hs (by simp)
    · exact absurd hs (by simp)
  · intro hs
    split at hs
    · split at hs
      · exact absurd hs (by simp)
      · next hne2 => rw [if_neg hne2]
    · rfl

/-- C7: on the short-link host the validator extracts the single non-empty
path segment as candidate identifier; every other path shape is rejected
with the short-link format error; and `https://youtu.be/dQw4w9WgXcQ`
canonicalises to the standard watch URL. -/
theorem C7_shortlink :
    (∀ (s : String) (pu : PyUrl),
      s.data ≠ [] →
      (MALICIOUS_PATTERNS.find? fun q => decide (q <:+: pyLowerL (trimL s.data))) = none →
      credFlag (trimL s.data) = false →
      pyUrlparseL (trimL s.data) = Except.ok pu →
      pu.scheme = "https".data →
      pyLowerL pu.netloc = "youtu.be".data →
      ((∀ seg, singleSeg (splitOnCharL '/' (stripSlashes pu.path)) = some seg →
          extractVid (pyLowerL pu.netloc) pu = Except.ok seg) ∧
       (singleSeg (splitOnCharL '/' (stripSlashes pu.path)) = none →
          validate s = Except.error VErr.badShortPath) ∧
       (∀ out, validate s = Except.ok out →
          ∃ seg, singleSeg (splitOnCharL '/' (stripSlashes pu.path)) = some seg))) ∧
    validate "https://youtu.be/dQw4w9WgXcQ" =
      Except.ok "https://www.youtube.com/watch?v=dQw4w9WgXcQ" := by
  constructor
  · intro s pu h0 hfind hcred hparse hscheme hdom
    have hel := extractVid_shortlink pu
    have hdm : pyLowerL pu.netloc ∈ ALLOWED_YOUTUBE_DOMAINS := by rw [hdom]; decide
    refine ⟨?_, ?_, ?_⟩
    · intro seg hs
      rw [hdom]
      exact hel.1 seg hs
    · intro hs
      have hext : extractVid (pyLowerL pu.netloc) pu = Except.error VErr.badShortPath := by
        rw [hdom]
        exact hel.2 hs
      exact validate_extract_err s pu _ h0 hfind hcred hparse hscheme hdm hext
    · intro out hout
      cases hss : singleSeg (splitOnCharL '/' (stripSlashes pu.path)) with
      | some seg => exact ⟨seg, rfl⟩
      | none =>
        have hext : extractVid (pyLowerL pu.netloc) pu = Except.error VErr.badShortPath := by
          rw [hdom]
          exact hel.2 hss
        rw [validate_extract_err s pu _ h0 hfind hcred hparse hscheme hdm hext] at hout
        exact Except.noConfusion hout
  · decide

/-! ## Claim theorems -/

/-- C1 (counterexample): the scenario-5 input contains `<script`, so the
pre-parse scan rejects it; it does not return the claimed canonical URL. -/
theorem C1_scenario5_cex :
    validate "https://www.youtube.com/watch?v=dQw4w9WgXcQ&list=PL123&evil=<script>" =
      Except.error (VErr.maliciousPattern "<script".data) ∧
    validate "https://www.youtube.com/watch?v=dQw4w9WgXcQ&list=PL123&evil=<script>" ≠
      Except.ok "https://www.youtube.com/watch?list=PL123&v=dQw4w9WgXcQ" := by
  decide

/-- C1 (amended): the scenario-5 input is rejected by the malicious-pattern
scan because it contains `<script`; with the script tag replaced by a benign
value the unrecognized `evil` parameter is dropped, `list` is kept and the
query is sorted, giving exactly the output the spec claims. -/
theorem C1_scenario5 :
    validate "https://www.youtube.com/watch?v=dQw4w9WgXcQ&list=PL123&evil=<script>" =
      Except.error (VErr.maliciousPattern "<script".data) ∧
    validate "https://www.youtube.com/watch?v=dQw4w9WgXcQ&list=PL123&evil=payload" =
      Except.ok "https://www.youtube.com/watch?list=PL123&v=dQw4w9WgXcQ" := by
  decide

/-- C2 (code bug, validators.py line 86): `'@' in url.split('://')[0] if
'://' in url else url` is a conditional expression, so when `'://'` is
absent the tested value is the string itself and every non-empty scheme-less
input is rejected as having embedded credentials.  `youtube.com` contains
no `@` and no `://`, yet validation fails with the credentials reason. -/
theorem C2_credentials_bug :
    "youtube.com".data.contains '@' = false ∧
    ¬ ("://".data <:+: "youtube.com".data) ∧
    validate "youtube.com" = Except.error VErr.credentials := by
  decide

/-- C4: any input whose lower-cased form contains a malicious pattern is
rejected by the pre-parse scan (the error carries the matched pattern,
showing the rejection happens before parsing). -/
theorem C4_preparse_reject (s : String)
    (h : ∃ p ∈ MALICIOUS_PATTERNS, p <:+: pyLowerL s.data) :
    ∃ q ∈ MALICIOUS_PATTERNS, validate s = Except.error (VErr.maliciousPattern q) :=
  validate_malicious h

theorem C4_preparse_reject_witness :
    (∃ p ∈ MALICIOUS_PATTERNS,
      p <:+: pyLowerL "https://m.youtube.com/%2E%2E/x".data) ∧
    (∃ q ∈ MALICIOUS_PATTERNS,
      validate "https://m.youtube.com/%2E%2E/x" =
        Except.error (VErr.maliciousPattern q)) :=
  ⟨by decide, C4_preparse_reject "https://m.youtube.com/%2E%2E/x" (by decide)⟩

/-- C5 (amended): an input whose stripped form parses with scheme https and
a lower-cased host outside the allow-list always fails; when the pre-parse
pattern scan and the credential check also pass, the rejection names the
disallowed domain.  (As literally stated the claim is false: an input can
instead be stopped by the earlier pre-parse checks, see the counterexample.) -/
theorem C5_domain_reject (s : String) (pu : PyUrl)
    (hparse : pyUrlparseL (trimL s.data) = Except.ok pu)
    (hscheme : pu.scheme = "https".data)
    (hdom : pyLowerL pu.netloc ∉ ALLOWED_YOUTUBE_DOMAINS) :
    (∃ e, validate s = Except.error e) ∧
    ((MALICIOUS_PATTERNS.find? fun q => decide (q <:+: pyLowerL (trimL s.data))) = none →
      credFlag (trimL s.data) = false →
      validate s = Except.error (VErr.badDomain (pyLowerL pu.netloc))) :=
  validate_badDomain s pu hparse hscheme hdom

theorem C5_domain_reject_witness :
    (pyUrlparseL (trimL "https://youtube.com.evil.com/watch?v=dQw4w9WgXcQ".data) =
      Except.ok ⟨"https".data, "youtube.com.evil.com".data, "/watch".data, [],
        "v=dQw4w9WgXcQ".data, []⟩) ∧
    validate "https://youtube.com.evil.com/watch?v=dQw4w9WgXcQ" =
      Except.error (VErr.badDomain "youtube.com.evil.com".data) :=
  ⟨by decide,
    (C5_domain_reject "https://youtube.com.evil.com/watch?v=dQw4w9WgXcQ"
      ⟨"https".data, "youtube.com.evil.com".data, "/watch".data, [],
        "v=dQw4w9WgXcQ".data, []⟩
      (by decide) (by decide) (by decide)).2 (by decide) (by decide)⟩

/-- C5 (counterexample): `https://evil-youtube.com/../x` parses with scheme
https and disallowed host `evil-youtube.com`, but the rejection is the
earlier malicious-pattern one, not the one naming the domain. -/
theorem C5_domain_reject_cex :
    (pyUrlparseL (trimL "https://evil-youtube.com/../x".data)).map
      (fun pu => (pu.scheme, pyLowerL pu.netloc)) =
      Except.ok ("https".data, "evil-youtube.com".data) ∧
    "evil-youtube.com".data ∉ ALLOWED_YOUTUBE_DOMAINS ∧
    validate "https://evil-youtube.com/../x" =
      Except.error (VErr.maliciousPattern "../".data) ∧
    VErr.maliciousPattern "../".data ≠ VErr.badDomain "evil-youtube.com".data := by
  decide

/-- C6 (amended): a non-empty input that passes the pre-parse pattern scan
and the credential check, and whose stripped form parses with a scheme other
than https, is rejected with the HTTPS-only reason.  (As literally stated
the claim is false: an earlier check can fire first, see the
counterexample.) -/
theorem C6_https_reject (s : String) (pu : PyUrl)
    (h0 : s.data ≠ [])
    (hfind : (MALICIOUS_PATTERNS.find? fun q => decide (q <:+: pyLowerL (trimL s.data))) = none)
    (hcred : credFlag (trimL s.data) = false)
    (hparse : pyUrlparseL (trimL s.data) = Except.ok pu)
    (hscheme : pu.scheme ≠ "https".data) :
    validate s = Except.error VErr.notHttps :=
  validate_notHttps s pu h0 hfind hcred hparse hscheme

theorem C6_https_reject_witness :
    (pyUrlparseL (trimL "http://youtube.com/watch?v=dQw4w9WgXcQ".data) =
      Except.ok ⟨"http".data, "youtube.com".data, "/watch".data, [],
        "v=dQw4w9WgXcQ".data, []⟩) ∧
    validate "http://youtube.com/watch?v=dQw4w9WgXcQ" = Except.error VErr.notHttps :=
  ⟨by decide,
    C6_https_reject "http://youtube.com/watch?v=dQw4w9WgXcQ"
      ⟨"http".data, "youtube.com".data, "/watch".data, [], "v=dQw4w9WgXcQ".data, []⟩
      (by decide) (by decide) (by decide) (by decide) (by decide)⟩

/-- C6 (counterexample): `ftp://www.youtube.com/watch?v=dQw4w9WgXcQ` parses
with scheme `ftp` (not https) but is rejected by the pre-parse pattern scan
on `ftp:`, not with the HTTPS reason. -/
theorem C6_https_reject_cex :
    (pyUrlparseL (trimL "ftp://www.youtube.com/watch?v=dQw4w9WgXcQ".data)).map
      PyUrl.scheme = Except.ok "ftp".data ∧
    "ftp".data ≠ "https".data ∧
    validate "ftp://www.youtube.com/watch?v=dQw4w9WgXcQ" =
      Except.error (VErr.maliciousPattern "ftp:".data) ∧
    VErr.maliciousPattern "ftp:".data ≠ VErr.notHttps := by
  decide

/-- C9 (amended): once a candidate identifier is extracted, validation fails
naming the candidate exactly when the anchored `VIDEO_ID_PATTERN` does not
match, and succeeds when it matches; because Python's `$` also matches
before one trailing newline, a match means either exactly 11 safe characters
or 11 safe characters followed by a single final newline. -/
theorem C9_videoid_format (s : String) (pu : PyUrl) (vid : List Char)
    (h0 : s.data ≠ [])
    (hfind : (MALICIOUS_PATTERNS.find? fun q => decide (q <:+: pyLowerL (trimL s.data))) = none)
    (hcred : credFlag (trimL s.data) = false)
    (hparse : pyUrlparseL (trimL s.data) = Except.ok pu)
    (hscheme : pu.scheme = "https".data)
    (hdom : pyLowerL pu.netloc ∈ ALLOWED_YOUTUBE_DOMAINS)
    (hvid : extractVid (pyLowerL pu.netloc) pu = Except.ok vid) :
    (matchVideoId vid = true ↔
      (vid.length = 11 ∧ ∀ c ∈ vid, safeChar c = true) ∨
      (vid.length = 12 ∧ vid.getLast? = some '\n' ∧
        ∀ c ∈ vid.dropLast, safeChar c = true)) ∧
    (matchVideoId vid = false → validate s = Except.error (VErr.invalidVideoId vid)) ∧
    (matchVideoId vid = true → ∃ out, validate s = Except.ok out) := by
  have hstage := C9_stage s pu vid h0 hfind hcred hparse hscheme hdom hvid
  exact ⟨matchVideoId_iff vid, hstage.1, fun hm => ⟨_, hstage.2 hm⟩⟩

theorem C9_videoid_format_witness :
    (extractVid "www.youtube.com".data
      ⟨"https".data, "www.youtube.com".data, "/watch".data, [], "v=abc".data, []⟩ =
      Except.ok "abc".data) ∧
    validate "https://www.youtube.com/watch?v=abc" =
      Except.error (VErr.invalidVideoId "abc".data) :=
  ⟨by decide,
    (C9_videoid_format "https://www.youtube.com/watch?v=abc"
      ⟨"https".data, "www.youtube.com".data, "/watch".data, [], "v=abc".data, []⟩
      "abc".data (by decide) (by decide) (by decide) (by decide) (by decide)
      (by decide) (by decide)).2.1 (by decide)⟩

/-- C9 (counterexample): from
`https://www.youtube.com/watch?v=abcdefghijk%0A` the candidate
`"abcdefghijk\n"` (12 characters, not all safe) is extracted, yet validation
succeeds, because `re.match` lets `$` match before the trailing newline. -/
theorem C9_videoid_format_cex :
    pyUrlparseL (trimL "https://www.youtube.com/watch?v=abcdefghijk%0A".data) =
      Except.ok ⟨"https".data, "www.youtube.com".data, "/watch".data, [],
        "v=abcdefghijk%0A".data, []⟩ ∧
    extractVid "www.youtube.com".data
      ⟨"https".data, "www.youtube.com".data, "/watch".data, [],
        "v=abcdefghijk%0A".data, []⟩ = Except.ok "abcdefghijk\n".data ∧
    ¬ ("abcdefghijk\n".data.length = 11 ∧
        ∀ c ∈ "abcdefghijk\n".data, safeChar c = true) ∧
    validate "https://www.youtube.com/watch?v=abcdefghijk%0A" =
      Except.ok "https://www.youtube.com/watch?v=abcdefghijk%0A" := by
  decide

/-! ## The sort order of `sorted(safe_params.items())` -/

theorem lexLtB_irrefl : ∀ a : List Char, lexLtB a a = false := by
  intro a
  induction a with
  | nil => rfl
  | cons c t ih => simp [lexLtB, ih]

theorem lexLtB_trichot : ∀ a b : List Char,
    lexLtB a b = true ∨ a = b ∨ lexLtB b a = true := by
  intro a
  induction a with
  | nil =>
    intro b
    cases b with
    | nil => exact Or.inr (Or.inl rfl)
    | cons c t => exact Or.inl rfl
  | cons c t ih =>
    intro b
    cases b with
    | nil => exact Or.inr (Or.inr rfl)
    | cons d u =>
      by_cases h1 : c.toNat < d.toNat
      · exact Or.inl (by simp [lexLtB, h1])
      · by_cases h2 : d.toNat < c.toNat
        · exact Or.inr (Or.inr (by simp [lexLtB, h2]))
        · have hcd : c = d := char_toNat_inj (by omega)
          rcases ih u with h | h | h
          · exact Or.inl (by simp [lexLtB, h1, h2, h])
          · exact Or.inr (Or.inl (by rw [hcd, h]))
          · exact Or.inr (Or.inr (by simp [lexLtB, h1, h2, h]))

theorem lexLtB_trans : ∀ {a b c : List Char},
    lexLtB a b = true → lexLtB b c = true → lexLtB a c = true := by
  intro a
  induction a with
  | nil =>
    intro b c h1 h2
    cases b with
    | nil => exact absurd h1 (by simp [lexLtB])
    | cons d u =>
      cases c with
      | nil => exact absurd h2 (by simp [lexLtB])
      | cons e v => rfl
  | cons x t ih =>
    intro b c h1 h2
    cases b with
    | nil => exact absurd h1 (by simp [lexLtB])
    | cons d u =>
      cases c with
      | nil => exact absurd h2 (by simp [lexLtB])
      | cons e v =>
        rw [lexLtB] at h1 h2 ⊢
        split at h1
        · next hxd =>
          split
          · rfl
          · next hex =>
            split at h2
            · next hde => omega
            · split at h2
              · exact absurd h2 (by simp)
              · next hed hde =>
                have : d.toNat = e.toNat := by omega
                omega
        · split at h1
          · exact absurd h1 (by simp)
          · next hdx hxd2 =>
            have hxd : x.toNat = d.toNat := by omega
            split at h2
            · next hde =>
              split
              · rfl
              · next hxe => omega
            · split at h2
              · exact absurd h2 (by simp)
              · next hed hde =>
                have hde2 : d.toNat = e.toNat := by omega
                split
                · rfl
                · next hxe =>
                  split
                  · next hex => omega
                  · exact ih h1 h2

theorem lexLtB_asymm {a b : List Char} (h : lexLtB a b = true) : lexLtB b a = false := by
  by_contra hc
  rw [Bool.not_eq_false] at hc
  have := lexLtB_trans h hc
  rw [lexLtB_irrefl] at this
  exact Bool.noConfusion this

theorem pairLtB_trans {x y z : List Char × List Char}
    (h1 : pairLtB x y = true) (h2 : pairLtB y z = true) : pairLtB x z = true := by
  unfold pairLtB at h1 h2 ⊢
  simp only [Bool.or_eq_true, Bool.and_eq_true, decide_eq_true_eq] at h1 h2 ⊢
  rcases h1 with h1 | ⟨h1e, h1v⟩
  · rcases h2 with h2 | ⟨h2e, h2v⟩
    · exact Or.inl (lexLtB_trans h1 h2)
    · exact Or.inl (h2e ▸ h1)
  · rcases h2 with h2 | ⟨h2e, h2v⟩
    · exact Or.inl (h1e ▸ h2)
    · exact Or.inr ⟨h1e.trans h2e, lexLtB_trans h1v h2v⟩

instance : IsTrans (List Char × List Char) pairLe := by
  constructor
  intro x y z h1 h2
  rcases h1 with h1 | h1
  · rcases h2 with h2 | h2
    · exact Or.inl (pairLtB_trans h1 h2)
    · exact Or.inl (h2 ▸ h1)
  · rcases h2 with h2 | h2
    · exact Or.inl (h1 ▸ h2)
    · exact Or.inr (h1.trans h2)

theorem pairLtB_trichot (x y : List Char × List Char) :
    pairLtB x y = true ∨ x = y ∨ pairLtB y x = true := by
  unfold pairLtB
  simp only [Bool.or_eq_true, Bool.and_eq_true, decide_eq_true_eq]
  rcases lexLtB_trichot x.1 y.1 with h | h | h
  · exact Or.inl (Or.inl h)
  · rcases lexLtB_trichot x.2 y.2 with h2 | h2 | h2
    · exact Or.inl (Or.inr ⟨h, h2⟩)
    · exact Or.inr (Or.inl (Prod.ext h h2))
    · exact Or.inr (Or.inr (Or.inr ⟨h.symm, h2⟩))
  · exact Or.inr (Or.inr (Or.inl h))

instance : IsTotal (List Char × List Char) pairLe := by
  constructor
  intro x y
  rcases pairLtB_trichot x y with h | h | h
  · exact Or.inl (Or.inl h)
  · exact Or.inl (Or.inr h)
  · exact Or.inr (Or.inl h)

/-! ## Dictionary lemmas -/

theorem dictInsert_mem_self (d : List (List Char × List Char)) (k v : List Char) :
    (k, v) ∈ dictInsert d k v := by
  induction d with
  | nil => simp [dictInsert]
  | cons e rest ih =>
    rw [dictInsert]
    split
    · exact List.mem_cons_self _ _
    · exact List.mem_cons_of_mem e ih

theorem dictInsert_of_not_mem {d : List (List Char × List Char)} {k : List Char}
    (h : k ∉ d.map Prod.fst) (v : List Char) : dictInsert d k v = d ++ [(k, v)] := by
  induction d with
  | nil => rfl
  | cons e rest ih =>
    rw [dictInsert]
    simp only [List.map_cons, List.mem_cons] at h
    push_neg at h
    rw [if_neg (fun hc => h.1 hc.symm)]
    rw [ih h.2]
    rfl

theorem mem_dictInsert {d : List (List Char × List Char)} {k v k' w : List Char}
    (hnd : (d.map Prod.fst).Nodup) :
    (k', w) ∈ dictInsert d k v ↔ (k' = k ∧ w = v) ∨ (k' ≠ k ∧ (k', w) ∈ d) := by
  induction d with
  | nil => simp [dictInsert, Prod.mk.injEq]
  | cons e rest ih =>
    simp only [List.map_cons, List.nodup_cons] at hnd
    rw [dictInsert]
    split
    · next hek =>
      constructor
      · intro hm
        rcases List.mem_cons.mp hm with h1 | h1
        · rw [Prod.mk.injEq] at h1
          exact Or.inl h1
        · right
          refine ⟨?_, List.mem_cons_of_mem e h1⟩
          intro hc
          apply hnd.1
          rw [hek, ← hc]
          exact List.mem_map.mpr ⟨(k', w), h1, rfl⟩
      · intro hm
        rcases hm with ⟨h1, h2⟩ | ⟨h1, h2⟩
        · rw [h1, h2]
          exact List.mem_cons_self _ _
        · rcases List.mem_cons.mp h2 with h3 | h3
          · exact absurd ((congrArg Prod.fst h3).trans hek) h1
          · exact List.mem_cons_of_mem _ h3
    · next hek =>
      constructor
      · intro hm
        rcases List.mem_cons.mp hm with h1 | h1
        · rw [Prod.mk.injEq] at h1
          right
          refine ⟨?_, ?_⟩
          · intro hc
            rw [h1.1] at hc
            exact hek hc
          · rw [h1.1, h1.2]
            exact List.mem_cons_self _ _
        · rcases (ih hnd.2).mp h1 with h2 | h2
          · exact Or.inl h2
          · exact Or.inr ⟨h2.1, List.mem_cons_of_mem e h2.2⟩
      · intro hm
        rcases hm with ⟨h1, h2⟩ | ⟨h1, h2⟩
        · exact List.mem_cons_of_mem e ((ih hnd.2).mpr (Or.inl ⟨h1, h2⟩))
        · rcases List.mem_cons.mp h2 with h3 | h3
          · rw [h3]
            exact List.mem_cons_self _ _
          · exact List.mem_cons_of_mem e ((ih hnd.2).mpr (Or.inr ⟨h1, h3⟩))

theorem dictInsert_keys_sub {d : List (List Char × List Char)} {k v : List Char} :
    ∀ k' ∈ (dictInsert d k v).map Prod.fst, k' ∈ d.map Prod.fst ∨ k' = k := by
  induction d with
  | nil => simp [dictInsert]
  | cons e rest ih =>
    intro k' hk'
    rw [dictInsert] at hk'
    split at hk'
    · next he =>
      rw [List.map_cons] at hk'
      rcases List.mem_cons.mp hk' with h1 | h1
      · exact Or.inr h1
      · exact Or.inl (by rw [List.map_cons]; exact List.mem_cons_of_mem _ h1)
    · rw [List.map_cons] at hk'
      rcases List.mem_cons.mp hk' with h1 | h1
      · exact Or.inl (by rw [List.map_cons, h1]; exact List.mem_cons_self _ _)
      · rcases ih k' h1 with h2 | h2
        · exact Or.inl (by rw [List.map_cons]; exact List.mem_cons_of_mem _ h2)
        · exact Or.inr h2

theorem dictInsert_keys_nodup {d : List (List Char × List Char)} {k v : List Char}
    (hnd : (d.map Prod.fst).Nodup) : ((dictInsert d k v).map Prod.fst).Nodup := by
  induction d with
  | nil => simp [dictInsert]
  | cons e rest ih =>
    simp only [List.map_cons, List.nodup_cons] at hnd
    rw [dictInsert]
    split
    · next he =>
      subst he
      simp only [List.map_cons, List.nodup_cons]
      exact hnd
    · simp only [List.map_cons, List.nodup_cons]
      constructor
      · intro hc
        rcases dictInsert_keys_sub e.1 hc with h1 | h1
        · exact hnd.1 h1
        · next he => exact he (h1 ▸ rfl)
      · exact ih hnd.2

theorem dictInsert_self {d : List (List Char × List Char)} {k v : List Char}
    (hnd : (d.map Prod.fst).Nodup) (hmem : (k, v) ∈ d) : dictInsert d k v = d := by
  induction d with
  | nil => simp at hmem
  | cons e rest ih =>
    simp only [List.map_cons, List.nodup_cons] at hnd
    rw [dictInsert]
    rcases List.mem_cons.mp hmem with h1 | h1
    · rw [if_pos (congrArg Prod.fst h1.symm), h1]
    · split
      · next he =>
        exact absurd (he ▸ List.mem_map_of_mem Prod.fst h1) hnd.1
      · rw [ih hnd.2 h1]

theorem alookup_eq_some_of_mem {β : Type} {d : List (List Char × β)} {k : List Char} {v : β}
    (hnd : (d.map Prod.fst).Nodup) (hmem : (k, v) ∈ d) : alookup d k = some v := by
  induction d with
  | nil => simp at hmem
  | cons e rest ih =>
    simp only [List.map_cons, List.nodup_cons] at hnd
    rw [alookup]
    rcases List.mem_cons.mp hmem with h1 | h1
    · rw [if_pos (congrArg Prod.fst h1.symm)]
      rw [← h1]
    · split
      · next he =>
        exact absurd (he ▸ List.mem_map_of_mem Prod.fst h1) hnd.1
      · exact ih hnd.2 h1

theorem alookup_map_val {β γ : Type} (f : β → γ) (d : List (List Char × β)) (k : List Char) :
    alookup (d.map fun kv => (kv.1, f kv.2)) k = (alookup d k).map f := by
  induction d with
  | nil => rfl
  | cons e rest ih =>
    simp only [List.map_cons]
    rw [alookup, alookup]
    split
    · rfl
    · exact ih

/-! ## `parse_qs` key structure -/

theorem qsUpdate_keys (d : List (List Char × List (List Char))) (n v : List Char) :
    (qsUpdate d n v).map Prod.fst =
      if n ∈ d.map Prod.fst then d.map Prod.fst else d.map Prod.fst ++ [n] := by
  induction d with
  | nil => simp [qsUpdate]
  | cons e rest ih =>
    rw [qsUpdate]
    split
    · next he =>
      rw [List.map_cons, List.map_cons, if_pos (by rw [he]; exact List.mem_cons_self _ _)]
    · next he =>
      rw [List.map_cons, List.map_cons, ih]
      by_cases hm : n ∈ rest.map Prod.fst
      · rw [if_pos hm, if_pos (List.mem_cons_of_mem _ hm)]
      · rw [if_neg hm, if_neg, List.cons_append]
        intro hc
        rcases List.mem_cons.mp hc with h1 | h1
        · exact he h1.symm
        · exact hm h1

theorem qsUpdate_keys_nodup {d : List (List Char × List (List Char))} {n v : List Char}
    (hnd : (d.map Prod.fst).Nodup) : ((qsUpdate d n v).map Prod.fst).Nodup := by
  rw [qsUpdate_keys]
  split
  · exact hnd
  · next hm =>
    rw [List.nodup_append]
    exact ⟨hnd, List.nodup_singleton n, by simpa using hm⟩

theorem parseQs_keys_nodup (q : List Char) : ((parseQs q).map Prod.fst).Nodup := by
  unfold parseQs
  have main : ∀ (ps : List (List Char × List Char))
      (acc : List (List Char × List (List Char))), (acc.map Prod.fst).Nodup →
      ((ps.foldl (fun a p => qsUpdate a p.1 p.2) acc).map Prod.fst).Nodup := by
    intro ps
    induction ps with
    | nil => intro acc h; exact h
    | cons p rest ih =>
      intro acc h
      rw [List.foldl_cons]
      exact ih _ (qsUpdate_keys_nodup h)
  exact main (parseQsl q) [] (by simp)

theorem qsUpdate_of_not_mem {d : List (List Char × List (List Char))} {n : List Char}
    (h : n ∉ d.map Prod.fst) (v : List Char) : qsUpdate d n v = d ++ [(n, [v])] := by
  induction d with
  | nil => rfl
  | cons e rest ih =>
    rw [qsUpdate]
    simp only [List.map_cons, List.mem_cons] at h
    push_neg at h
    rw [if_neg (fun hc => h.1 hc.symm), ih h.2]
    rfl

/-! ## The query-filtering loop as a `filterMap` -/

/-- The keep-or-drop decision of the loop in validators.py lines 156-162. -/
def keepF (kv : List Char × List (List Char)) : Option (List Char × List Char) :=
  match kv.2 with
  | v0 :: _ =>
    if kv.1 ∈ ALLOWED_QUERY_PARAMS ∧ matchSafeVal v0 then some (kv.1, v0) else none
  | [] => none

theorem keepF_keys {kv : List Char × List (List Char)} {p : List Char × List Char}
    (h : keepF kv = some p) : p.1 = kv.1 := by
  unfold keepF at h
  split at h
  · split at h
    · injection h with h2
      rw [← h2]
    · exact absurd h (by simp)
  · exact absurd h (by simp)

theorem keptParams_eq_filterMap (q : List Char) :
    keptParams q = (parseQs q).filterMap keepF := by
  unfold keptParams
  split
  · next hq =>
    rw [hq]
    rfl
  · have main : ∀ (l : List (List Char × List (List Char)))
        (acc : List (List Char × List Char)),
        (l.map Prod.fst).Nodup →
        (∀ kv ∈ l, kv.1 ∉ acc.map Prod.fst) →
        l.foldl
          (fun acc kv =>
            match kv.2 with
            | v0 :: _ =>
              if kv.1 ∈ ALLOWED_QUERY_PARAMS ∧ matchSafeVal v0 then
                dictInsert acc kv.1 v0
              else acc
            | [] => acc) acc = acc ++ l.filterMap keepF := by
      intro l
      induction l with
      | nil => intro acc _ _; simp
      | cons kv rest ih =>
        intro acc hnd hdisj
        rw [List.foldl_cons, List.filterMap_cons]
        simp only [List.map_cons, List.nodup_cons] at hnd
        have hkv := hdisj kv (List.mem_cons_self kv rest)
        cases hv : kv.2 with
        | nil =>
          rw [show keepF kv = none by simp only [keepF, hv]]
          simp only [hv]
          exact ih acc hnd.2 (fun a ha => hdisj a (List.mem_cons_of_mem kv ha))
        | cons v0 vs =>
          by_cases hc : kv.1 ∈ ALLOWED_QUERY_PARAMS ∧ matchSafeVal v0
          · rw [show keepF kv = some (kv.1, v0) by simp only [keepF, hv]; rw [if_pos hc]]
            simp only [hv]
            rw [if_pos hc, dictInsert_of_not_mem hkv]
            rw [ih (acc ++ [(kv.1, v0)]) hnd.2]
            · rw [List.append_assoc]
              rfl
            · intro a ha
              rw [List.map_append]
              intro hmem
              rcases List.mem_append.mp hmem with h1 | h1
              · exact hdisj a (List.mem_cons_of_mem kv ha) h1
              · simp at h1
                apply hnd.1
                rw [← h1]
                exact List.mem_map.mpr ⟨a, ha, rfl⟩
          · rw [show keepF kv = none by simp only [keepF, hv]; rw [if_neg hc]]
            simp only [hv]
            rw [if_neg hc]
            exact ih acc hnd.2 (fun a ha => hdisj a (List.mem_cons_of_mem kv ha))
    exact main (parseQs q) [] (parseQs_keys_nodup q) (by simp)

theorem keptParams_keys_sublist (q : List Char) :
    List.Sublist ((keptParams q).map Prod.fst) ((parseQs q).map Prod.fst) := by
  rw [keptParams_eq_filterMap]
  have main : ∀ l : List (List Char × List (List Char)),
      List.Sublist ((l.filterMap keepF).map Prod.fst) (l.map Prod.fst) := by
    intro l
    induction l with
    | nil => simp
    | cons kv rest ih =>
      rw [List.filterMap_cons]
      cases hf : keepF kv with
      | none =>
        rw [List.map_cons]
        exact ih.trans (List.sublist_cons_self _ _)
      | some p =>
        rw [List.map_cons, List.map_cons, keepF_keys hf]
        exact ih.cons₂ kv.1
  exact main (parseQs q)

theorem keptParams_keys_nodup (q : List Char) :
    ((keptParams q).map Prod.fst).Nodup :=
  (parseQs_keys_nodup q).sublist (keptParams_keys_sublist q)

theorem mem_keptParams {q k val : List Char} :
    (k, val) ∈ keptParams q ↔
      k ∈ ALLOWED_QUERY_PARAMS ∧ matchSafeVal val = true ∧
        ∃ rest, (k, val :: rest) ∈ parseQs q := by
  rw [keptParams_eq_filterMap, List.mem_filterMap]
  constructor
  · rintro ⟨kv, hkv, hf⟩
    unfold keepF at hf
    split at hf
    · next v0 vs hv =>
      split at hf
      · next hcond =>
        injection hf with h2
        rw [Prod.mk.injEq] at h2
        refine ⟨h2.1 ▸ hcond.1, h2.2 ▸ hcond.2, vs, ?_⟩
        rw [← h2.1, ← h2.2, ← hv]
        exact hkv
      · exact absurd hf (by simp)
    · exact absurd hf (by simp)
  · rintro ⟨hk, hs, rest, hmem⟩
    refine ⟨(k, val :: rest), hmem, ?_⟩
    simp only [keepF]
    rw [if_pos ⟨hk, hs⟩]

/-! ## Decode/encode roundtrip for safe values -/

theorem char_ne_of_toNat_ne {c d : Char} (h : c.toNat ≠ d.toNat) : c ≠ d :=
  fun he => h (he ▸ rfl)

theorem safeChar_toNat {c : Char} (h : safeChar c = true) :
    c.toNat = 95 ∨ c.toNat = 45 ∨ (48 ≤ c.toNat ∧ c.toNat ≤ 57) ∨
    (65 ≤ c.toNat ∧ c.toNat ≤ 90) ∨ (97 ≤ c.toNat ∧ c.toNat ≤ 122) := by
  simp only [safeChar, isAsciiAlpha, isAsciiDigit, Bool.or_eq_true, Bool.and_eq_true,
    decide_eq_true_eq] at h
  omega

theorem safeChar_ascii {c : Char} (h : safeChar c = true) : c.toNat < 128 := by
  rcases safeChar_toNat h with h | h | h | h | h <;> omega

theorem safeChar_ne_pct {c : Char} (h : safeChar c = true) : c ≠ '%' := by
  have hn := safeChar_toNat h
  apply char_ne_of_toNat_ne
  have h37 : ('%' : Char).toNat = 37 := rfl
  rw [h37]
  omega

theorem safeChar_ne_plus {c : Char} (h : safeChar c = true) : c ≠ '+' := by
  have hn := safeChar_toNat h
  apply char_ne_of_toNat_ne
  have h43 : ('+' : Char).toNat = 43 := rfl
  rw [h43]
  omega

theorem char_eq_iff_toNat {c d : Char} : (c = d) ↔ c.toNat = d.toNat :=
  ⟨fun h => h ▸ rfl, char_toNat_inj⟩

theorem alwaysSafeChar_of_safe {c : Char} (h : safeChar c = true) :
    alwaysSafeChar c = true := by
  have hn := safeChar_toNat h
  have e1 : ('_' : Char).toNat = 95 := rfl
  have e2 : ('.' : Char).toNat = 46 := rfl
  have e3 : ('-' : Char).toNat = 45 := rfl
  have e4 : ('~' : Char).toNat = 126 := rfl
  simp only [alwaysSafeChar, isAsciiAlpha, isAsciiDigit, char_eq_iff_toNat, e1, e2, e3, e4,
    Bool.or_eq_true, Bool.and_eq_true, decide_eq_true_eq]
  omega

theorem mapSelf {α : Type} {f : α → α} {l : List α} (h : ∀ c ∈ l, f c = c) :
    l.map f = l := by
  induction l with
  | nil => rfl
  | cons c t ih =>
    rw [List.map_cons, h c (List.mem_cons_self c t), ih fun a ha => h a (List.mem_cons_of_mem c ha)]

theorem quotePlusL_append (a b : List Char) :
    quotePlusL (a ++ b) = quotePlusL a ++ quotePlusL b := by
  unfold quotePlusL
  rw [List.flatMap_append]

theorem quotePlusL_safe {l : List Char} (h : ∀ c ∈ l, safeChar c = true) :
    quotePlusL l = l := by
  induction l with
  | nil => rfl
  | cons c t ih =>
    unfold quotePlusL
    rw [List.flatMap_cons, if_pos (alwaysSafeChar_of_safe (h c (List.mem_cons_self c t)))]
    rw [show (List.flatMap t fun c => if alwaysSafeChar c = true then [c]
        else if c = ' ' then ['+']
        else (charUtf8 c).flatMap fun b => ['%', hexDigU (b / 16), hexDigU (b % 16)]) =
      quotePlusL t from rfl]
    rw [ih fun a ha => h a (List.mem_cons_of_mem c ha)]
    rfl

theorem quotePlusL_newline : quotePlusL ['\n'] = ['%', '0', 'A'] := by decide

theorem pdAux_cons_safe {c : Char} {rest : List Char} (h1 : c.toNat < 128) (h2 : c ≠ '%') :
    pdAux (c :: rest) = Sum.inl c.toNat :: pdAux rest := by
  rw [pdAux.eq_def]
  split
  all_goals first | (rw [if_pos h1]) | simp_all

theorem pdAux_append_safe {a : List Char} (b : List Char)
    (h : ∀ c ∈ a, c.toNat < 128 ∧ c ≠ '%') :
    pdAux (a ++ b) = a.map (fun c => Sum.inl c.toNat) ++ pdAux b := by
  induction a with
  | nil => rfl
  | cons c t ih =>
    rw [List.cons_append,
      pdAux_cons_safe (h c (List.mem_cons_self c t)).1 (h c (List.mem_cons_self c t)).2,
      ih fun a ha => h a (List.mem_cons_of_mem c ha), List.map_cons, List.cons_append]

theorem pdAux_pct0A (rest : List Char) :
    pdAux ('%' :: '0' :: 'A' :: rest) = Sum.inl 10 :: pdAux rest := rfl

theorem u8lead_ascii {b : Nat} (h : b < 128) : u8lead b = ([Char.ofNat b], 0, 0, 0, 0) := by
  unfold u8lead
  rw [if_pos h]

theorem utf8drAux_ascii_cons {b : Nat} (bs : List Nat) (h : b < 128) :
    utf8drAux 0 0 0 0 (b :: bs) = Char.ofNat b :: utf8drAux 0 0 0 0 bs := by
  rw [utf8drAux, if_pos rfl, u8lead_ascii h]
  rfl

theorem utf8dr_all_ascii {bs : List Nat} (h : ∀ b ∈ bs, b < 128) :
    utf8dr bs = bs.map Char.ofNat := by
  unfold utf8dr
  induction bs with
  | nil => rfl
  | cons b t ih =>
    rw [utf8drAux_ascii_cons t (h b (List.mem_cons_self b t)),
      ih fun a ha => h a (List.mem_cons_of_mem b ha), List.map_cons]

theorem regroupAux_inl : ∀ (bs acc : List Nat),
    regroupAux acc (bs.map Sum.inl) = utf8dr (acc.reverse ++ bs) := by
  intro bs
  induction bs with
  | nil =>
    intro acc
    rw [List.map_nil, regroupAux, List.append_nil]
  | cons b t ih =>
    intro acc
    rw [List.map_cons, regroupAux, ih (b :: acc), List.reverse_cons, List.append_assoc,
      List.singleton_append]

theorem regroup_bytes (bs : List Nat) : regroupAux [] (bs.map Sum.inl) = utf8dr bs := by
  rw [regroupAux_inl]
  rfl

theorem pdAux_all_safe {v : List Char} (h : ∀ c ∈ v, c.toNat < 128 ∧ c ≠ '%') :
    pdAux v = v.map fun c => Sum.inl c.toNat := by
  induction v with
  | nil => rfl
  | cons c t ih =>
    rw [pdAux_cons_safe (h c (List.mem_cons_self c t)).1 (h c (List.mem_cons_self c t)).2,
      ih fun a ha => h a (List.mem_cons_of_mem c ha), List.map_cons]

theorem map_ofNat_toNat (v : List Char) : (v.map Char.toNat).map Char.ofNat = v := by
  rw [List.map_map]
  exact mapSelf fun c _ => Char.ofNat_toNat c

theorem pyUnquotePlus_safe {v : List Char} (h : ∀ c ∈ v, safeChar c = true) :
    pyUnquotePlus v = v := by
  unfold pyUnquotePlus
  rw [mapSelf (fun c hc => by
    unfold plusToSpace
    rw [if_neg (safeChar_ne_plus (h c hc))])]
  rw [pdAux_all_safe fun c hc => ⟨safeChar_ascii (h c hc), safeChar_ne_pct (h c hc)⟩]
  have hrw : (v.map fun c => Sum.inl c.toNat : List (Nat ⊕ Char)) =
      List.map Sum.inl (v.map Char.toNat) := by
    rw [List.map_map]
    rfl
  rw [hrw, regroup_bytes]
  rw [utf8dr_all_ascii (by
    intro b hb
    rcases List.mem_map.mp hb with ⟨c, hc, hbc⟩
    rw [← hbc]
    exact safeChar_ascii (h c hc))]
  exact map_ofNat_toNat v

theorem pyUnquotePlus_safe_newline {core : List Char}
    (h : ∀ c ∈ core, safeChar c = true) :
    pyUnquotePlus (core ++ ['%', '0', 'A']) = core ++ ['\n'] := by
  unfold pyUnquotePlus
  rw [List.map_append]
  rw [mapSelf (fun c hc => by
    unfold plusToSpace
    rw [if_neg (safeChar_ne_plus (h c hc))])]
  rw [show List.map plusToSpace ['%', '0', 'A'] = ['%', '0', 'A'] from rfl]
  rw [pdAux_append_safe _ fun c hc => ⟨safeChar_ascii (h c hc), safeChar_ne_pct (h c hc)⟩]
  rw [show pdAux ['%', '0', 'A'] = [Sum.inl 10] from rfl]
  have hrw : ((core.map fun c => Sum.inl c.toNat) ++ [Sum.inl 10] : List (Nat ⊕ Char)) =
      List.map Sum.inl (core.map Char.toNat ++ [10]) := by
    rw [List.map_append, List.map_map]
    rfl
  rw [hrw, regroup_bytes]
  rw [utf8dr_all_ascii (by
    intro b hb
    rcases List.mem_append.mp hb with h1 | h1
    · rcases List.mem_map.mp h1 with ⟨c, hc, hbc⟩
      rw [← hbc]
      exact safeChar_ascii (h c hc)
    · simp at h1
      omega)]
  rw [List.map_append, map_ofNat_toNat]
  rfl

/-! ## Splitting the encoded query -/

theorem splitOnCharL_no_sep {sep : Char} {a : List Char} (h : ∀ c ∈ a, c ≠ sep) :
    splitOnCharL sep a = [a] := by
  induction a with
  | nil => rfl
  | cons c t ih =>
    rw [splitOnCharL]
    rw [if_neg (h c (List.mem_cons_self c t))]
    rw [ih fun x hx => h x (List.mem_cons_of_mem c hx)]

theorem splitOnCharL_append_sep {sep : Char} {a rest : List Char}
    (h : ∀ c ∈ a, c ≠ sep) :
    splitOnCharL sep (a ++ sep :: rest) = a :: splitOnCharL sep rest := by
  induction a with
  | nil =>
    rw [List.nil_append, splitOnCharL, if_pos rfl]
  | cons c t ih =>
    rw [List.cons_append, splitOnCharL]
    rw [if_neg (h c (List.mem_cons_self c t))]
    rw [ih fun x hx => h x (List.mem_cons_of_mem c hx)]

theorem qslField_split {k w : List Char} (hk : ∀ c ∈ k, c ≠ '=') (hw1 : w ≠ []) :
    qslField (k ++ '=' :: w) = some (pyUnquotePlus k, pyUnquotePlus w) := by
  unfold qslField
  have hd : (k ++ '=' :: w).dropWhile (fun c => c ≠ '=') = '=' :: w := by
    rw [List.dropWhile_append_of_pos (by
      intro a ha
      simpa using hk a ha)]
    rw [List.dropWhile_cons_of_neg (by simp)]
  have ht : (k ++ '=' :: w).takeWhile (fun c => c ≠ '=') = k := by
    rw [List.takeWhile_append_of_pos (by
      intro a ha
      simpa using hk a ha)]
    rw [List.takeWhile_cons_of_neg (by simp), List.append_nil]
  rw [if_neg (by simp)]
  rw [if_pos (by simp)]
  rw [hd, ht]
  rw [if_neg (by simpa using hw1)]
  rfl

/-! ## Shape of encoded safe values -/

theorem matchSafeVal_cases {v : List Char} (h : matchSafeVal v = true) :
    (v ≠ [] ∧ ∀ c ∈ v, safeChar c = true) ∨
    (∃ core, v = core ++ ['\n'] ∧ ∀ c ∈ core, safeChar c = true) := by
  unfold matchSafeVal at h
  by_cases hl : v.getLast? = some '\n'
  · right
    obtain ⟨ys, hys⟩ := List.getLast?_eq_some_iff.mp hl
    rw [if_pos hl] at h
    simp only [Bool.and_eq_true, List.all_eq_true, Bool.not_eq_true'] at h
    refine ⟨ys, hys, ?_⟩
    intro c hc
    apply h.2
    rw [hys, List.dropLast_concat]
    exact hc
  · left
    rw [if_neg hl] at h
    simp only [Bool.and_eq_true, List.all_eq_true, Bool.not_eq_true'] at h
    exact ⟨by simpa using h.1, h.2⟩

theorem matchSafeVal_ne_nil {v : List Char} (h : matchSafeVal v = true) : v ≠ [] := by
  rcases matchSafeVal_cases h with ⟨h1, _⟩ | ⟨core, h1, _⟩
  · exact h1
  · rw [h1]
    simp

theorem quotePlus_shape {v : List Char} (hv : matchSafeVal v = true) :
    (quotePlusL v = v ∧ ∀ c ∈ v, safeChar c = true) ∨
    (∃ core, v = core ++ ['\n'] ∧ quotePlusL v = core ++ ['%', '0', 'A'] ∧
      ∀ c ∈ core, safeChar c = true) := by
  rcases matchSafeVal_cases hv with ⟨_, h2⟩ | ⟨core, h1, h2⟩
  · exact Or.inl ⟨quotePlusL_safe h2, h2⟩
  · right
    refine ⟨core, h1, ?_, h2⟩
    rw [h1, quotePlusL_append, quotePlusL_safe h2, quotePlusL_newline]

theorem encVal_decode {v : List Char} (hv : matchSafeVal v = true) :
    pyUnquotePlus (quotePlusL v) = v := by
  rcases quotePlus_shape hv with ⟨h1, h2⟩ | ⟨core, h1, h2, h3⟩
  · rw [h1]
    exact pyUnquotePlus_safe h2
  · rw [h2, pyUnquotePlus_safe_newline h3, h1]

theorem encVal_chars {v : List Char} (hv : matchSafeVal v = true) :
    ∀ c ∈ quotePlusL v, safeChar c = true ∨ c.toNat = 37 := by
  rcases quotePlus_shape hv with ⟨h1, h2⟩ | ⟨core, h1, h2, h3⟩
  · rw [h1]
    exact fun c hc => Or.inl (h2 c hc)
  · rw [h2]
    intro c hc
    rcases List.mem_append.mp hc with hc1 | hc1
    · exact Or.inl (h3 c hc1)
    · simp only [List.mem_cons, List.not_mem_nil, or_false] at hc1
      rcases hc1 with hc2 | hc2 | hc2
      · exact Or.inr (by rw [hc2]; rfl)
      · exact Or.inl (by rw [hc2]; decide)
      · exact Or.inl (by rw [hc2]; decide)

theorem encVal_ne_nil {v : List Char} (hv : matchSafeVal v = true) :
    quotePlusL v ≠ [] := by
  rcases quotePlus_shape hv with ⟨h1, _⟩ | ⟨core, _, h2, _⟩
  · rw [h1]
    exact matchSafeVal_ne_nil hv
  · rw [h2]
    simp

theorem safeChar_ne_eq {c : Char} (h : safeChar c = true) : c ≠ '=' := by
  have hn := safeChar_toNat h
  apply char_ne_of_toNat_ne
  have h61 : ('=' : Char).toNat = 61 := rfl
  rw [h61]
  omega

theorem safeChar_ne_amp {c : Char} (h : safeChar c = true) : c ≠ '&' := by
  have hn := safeChar_toNat h
  apply char_ne_of_toNat_ne
  have h38 : ('&' : Char).toNat = 38 := rfl
  rw [h38]
  omega

/-- One `k=v` item of `urlencode`. -/
def encF (kv : List Char × List Char) : List Char :=
  quotePlusL kv.1 ++ '=' :: quotePlusL kv.2

theorem encodeQueryL_eq : ∀ pairs : List (List Char × List Char),
    encodeQueryL pairs =
      match pairs with
      | [] => []
      | p :: ps => encF p ++ ps.flatMap fun kv => '&' :: encF kv := by
  intro pairs
  cases pairs with
  | nil => rfl
  | cons p ps =>
    unfold encodeQueryL
    rw [List.map_cons]
    show encF p ++ (ps.map encF).flatMap (fun part => '&' :: part) = _
    congr 1
    rw [List.flatMap_map]

theorem encodeQueryL_cons₂ (p q : List Char × List Char)
    (qs : List (List Char × List Char)) :
    encodeQueryL (p :: q :: qs) = encF p ++ '&' :: encodeQueryL (q :: qs) := by
  rw [encodeQueryL_eq, encodeQueryL_eq]
  show encF p ++ ('&' :: encF q ++ (qs.flatMap fun kv => '&' :: encF kv)) = _
  rw [List.cons_append]

theorem encF_ne_nil (kv : List Char × List Char) : encF kv ≠ [] := by
  unfold encF
  simp

theorem encF_no_amp {kv : List Char × List Char}
    (hk : ∀ c ∈ kv.1, safeChar c = true) (hv : matchSafeVal kv.2 = true) :
    ∀ c ∈ encF kv, c ≠ '&' := by
  intro c hc
  unfold encF at hc
  rcases List.mem_append.mp hc with h1 | h1
  · rw [quotePlusL_safe hk] at h1
    exact safeChar_ne_amp (hk c h1)
  · rcases List.mem_cons.mp h1 with h2 | h2
    · rw [h2]
      decide
    · rcases encVal_chars hv c h2 with h3 | h3
      · exact safeChar_ne_amp h3
      · apply char_ne_of_toNat_ne
        have h38 : ('&' : Char).toNat = 38 := rfl
        rw [h38, h3]
        omega

theorem qslField_encF {kv : List Char × List Char}
    (hk : ∀ c ∈ kv.1, safeChar c = true) (hv : matchSafeVal kv.2 = true) :
    qslField (encF kv) = some kv := by
  unfold encF
  rw [qslField_split (by
      intro c hc
      rw [quotePlusL_safe hk] at hc
      exact safeChar_ne_eq (hk c hc))
    (encVal_ne_nil hv)]
  rw [quotePlusL_safe hk, pyUnquotePlus_safe hk, encVal_decode hv]

theorem parseQsl_encode {pairs : List (List Char × List Char)}
    (hg : ∀ kv ∈ pairs, (∀ c ∈ kv.1, safeChar c = true) ∧ matchSafeVal kv.2 = true) :
    parseQsl (encodeQueryL pairs) = pairs := by
  cases pairs with
  | nil => rfl
  | cons p ps =>
    have hsplit : ∀ (qs : List (List Char × List Char)) (q : List Char × List Char),
        (∀ kv ∈ q :: qs, (∀ c ∈ kv.1, safeChar c = true) ∧ matchSafeVal kv.2 = true) →
        splitOnCharL '&' (encodeQueryL (q :: qs)) = (q :: qs).map encF := by
      intro qs
      induction qs with
      | nil =>
        intro q hq
        rw [encodeQueryL_eq]
        show splitOnCharL '&' (encF q ++ []) = _
        rw [List.append_nil]
        rw [splitOnCharL_no_sep (encF_no_amp (hq q (List.mem_cons_self q [])).1
          (hq q (List.mem_cons_self q [])).2)]
        rfl
      | cons r rs ih =>
        intro q hq
        rw [encodeQueryL_cons₂]
        rw [splitOnCharL_append_sep (encF_no_amp (hq q (List.mem_cons_self q (r :: rs))).1
          (hq q (List.mem_cons_self q (r :: rs))).2)]
        rw [ih r fun kv hkv => hq kv (List.mem_cons_of_mem q hkv)]
        rfl
    unfold parseQsl
    rw [if_neg (by
      rw [encodeQueryL_eq]
      show ¬(encF p ++ _ = [])
      simp [encF_ne_nil])]
    rw [hsplit ps p hg]
    have hfm : ∀ (l : List (List Char × List Char)),
        (∀ kv ∈ l, (∀ c ∈ kv.1, safeChar c = true) ∧ matchSafeVal kv.2 = true) →
        (l.map encF).filterMap qslField = l := by
      intro l
      induction l with
      | nil => intro _; rfl
      | cons kv rest ih =>
        intro hl
        rw [List.map_cons, List.filterMap_cons,
          qslField_encF (hl kv (List.mem_cons_self kv rest)).1
            (hl kv (List.mem_cons_self kv rest)).2]
        rw [ih fun a ha => hl a (List.mem_cons_of_mem kv ha)]
    exact hfm (p :: ps) hg

theorem parseQs_of_distinct {l : List (List Char × List Char)}
    (hnd : (l.map Prod.fst).Nodup) :
    l.foldl (fun acc p => qsUpdate acc p.1 p.2) [] =
      l.map fun kv => (kv.1, [kv.2]) := by
  have main : ∀ (m : List (List Char × List Char))
      (acc : List (List Char × List (List Char))),
      (m.map Prod.fst).Nodup → (∀ kv ∈ m, kv.1 ∉ acc.map Prod.fst) →
      m.foldl (fun acc p => qsUpdate acc p.1 p.2) acc =
        acc ++ m.map fun kv => (kv.1, [kv.2]) := by
    intro m
    induction m with
    | nil => intro acc _ _; simp
    | cons p rest ih =>
      intro acc hnd hdisj
      simp only [List.map_cons, List.nodup_cons] at hnd
      rw [List.foldl_cons, qsUpdate_of_not_mem (hdisj p (List.mem_cons_self p rest))]
      rw [ih (acc ++ [(p.1, [p.2])]) hnd.2]
      · rw [List.map_cons, List.append_assoc]
        rfl
      · intro a ha
        rw [List.map_append]
        intro hmem
        rcases List.mem_append.mp hmem with h1 | h1
        · exact hdisj a (List.mem_cons_of_mem p ha) h1
        · simp at h1
          apply hnd.1
          rw [← h1]
          exact List.mem_map.mpr ⟨a, ha, rfl⟩
  exact main l [] hnd (by simp)

theorem parseQs_encode {pairs : List (List Char × List Char)}
    (hg : ∀ kv ∈ pairs, (∀ c ∈ kv.1, safeChar c = true) ∧ matchSafeVal kv.2 = true)
    (hnd : (pairs.map Prod.fst).Nodup) :
    parseQs (encodeQueryL pairs) = pairs.map fun kv => (kv.1, [kv.2]) := by
  unfold parseQs
  rw [parseQsl_encode hg]
  exact parseQs_of_distinct hnd

/-! ## Inversion of a successful validation -/

theorem validate_ok_inv {s out : String} (h : validate s = Except.ok out) :
    ∃ vid q, matchVideoId vid = true ∧ out = ⟨buildCanonical vid q⟩ := by
  unfold validate at h
  split at h
  · exact absurd h (by simp)
  · unfold validateCore at h
    split at h
    · exact absurd h (by simp [Except.map])
    · split at h
      · exact absurd h (by simp [Except.map])
      · split at h
        · exact absurd h (by simp [Except.map])
        · next pu hpu =>
          split at h
          · exact absurd h (by simp [Except.map])
          · simp only [] at h
            split at h
            · split at h
              · exact absurd h (by simp [Except.map])
              · next vid hvid =>
                split at h
                · exact absurd h (by simp [Except.map])
                · split at h
                  · exact absurd h (by simp [Except.map])
                  · next hm =>
                    refine ⟨vid, pu.query, ?_, ?_⟩
                    · simpa using hm
                    · simp only [Except.map] at h
                      injection h with h2
                      exact h2.symm
            · exact absurd h (by simp [Except.map])

/-! ## The alphabet of encoded query strings -/

/-- Characters that can occur in the output of `urlencode` on safe pairs:
safe characters, '%', '=' and '&'. -/
def qalpha (c : Char) : Bool :=
  safeChar c || c = '%' || c = '=' || c = '&'

theorem qalpha_toNat {c : Char} (h : qalpha c = true) :
    c.toNat = 37 ∨ c.toNat = 38 ∨ c.toNat = 61 ∨
    c.toNat = 95 ∨ c.toNat = 45 ∨ (48 ≤ c.toNat ∧ c.toNat ≤ 57) ∨
    (65 ≤ c.toNat ∧ c.toNat ≤ 90) ∨ (97 ≤ c.toNat ∧ c.toNat ≤ 122) := by
  simp only [qalpha, Bool.or_eq_true, decide_eq_true_eq] at h
  rcases h with ((hs | h1) | h2) | h3
  · rcases safeChar_toNat hs with h | h | h | h | h <;> omega
  · rw [h1]; left; rfl
  · rw [h2]; right; right; left; rfl
  · rw [h3]; right; left; rfl

theorem qalpha_of_safe {c : Char} (h : safeChar c = true) : qalpha c = true := by
  simp [qalpha, h]

theorem qalpha_ne {c d : Char} (h : qalpha c = true)
    (hd : d.toNat ≠ 37 ∧ d.toNat ≠ 38 ∧ d.toNat ≠ 61 ∧ d.toNat ≠ 95 ∧ d.toNat ≠ 45 ∧
      ¬(48 ≤ d.toNat ∧ d.toNat ≤ 57) ∧ ¬(65 ≤ d.toNat ∧ d.toNat ≤ 90) ∧
      ¬(97 ≤ d.toNat ∧ d.toNat ≤ 122)) : c ≠ d := by
  have hn := qalpha_toNat h
  apply char_ne_of_toNat_ne
  omega

theorem allowed_keys_safe :
    ∀ k ∈ ALLOWED_QUERY_PARAMS, ∀ c ∈ k, safeChar c = true := by decide

theorem matchVideoId_safeVal {v : List Char} (h : matchVideoId v = true) :
    matchSafeVal v = true := by
  unfold matchVideoId at h
  unfold matchSafeVal
  simp only [Bool.and_eq_true, decide_eq_true_eq] at h ⊢
  refine ⟨?_, h.2⟩
  cases hcore : (if v.getLast? = some '\n' then v.dropLast else v) with
  | nil => rw [hcore] at h; simp at h
  | cons a t => simp

theorem encF_alpha {kv : List Char × List Char}
    (hk : ∀ c ∈ kv.1, safeChar c = true) (hv : matchSafeVal kv.2 = true) :
    ∀ c ∈ encF kv, qalpha c = true := by
  intro c hc
  unfold encF at hc
  rcases List.mem_append.mp hc with h1 | h1
  · rw [quotePlusL_safe hk] at h1
    exact qalpha_of_safe (hk c h1)
  · rcases List.mem_cons.mp h1 with h2 | h2
    · rw [h2]; decide
    · rcases encVal_chars hv c h2 with h3 | h3
      · exact qalpha_of_safe h3
      · have : c = '%' := char_toNat_inj (by rw [h3]; rfl)
        rw [this]; decide

theorem encodeQueryL_alpha {pairs : List (List Char × List Char)}
    (hg : ∀ kv ∈ pairs, (∀ c ∈ kv.1, safeChar c = true) ∧ matchSafeVal kv.2 = true) :
    ∀ c ∈ encodeQueryL pairs, qalpha c = true := by
  cases pairs with
  | nil => intro c hc; simp [encodeQueryL] at hc
  | cons p ps =>
    rw [encodeQueryL_eq]
    intro c hc
    rcases List.mem_append.mp hc with h1 | h1
    · exact encF_alpha (hg p (List.mem_cons_self p ps)).1 (hg p (List.mem_cons_self p ps)).2 c h1
    · rcases List.mem_flatMap.mp h1 with ⟨kv, hkv, hm⟩
      rcases List.mem_cons.mp hm with h2 | h2
      · rw [h2]; decide
      · exact encF_alpha (hg kv (List.mem_cons_of_mem p hkv)).1
          (hg kv (List.mem_cons_of_mem p hkv)).2 c h2

theorem encodeQueryL_ne_nil {pairs : List (List Char × List Char)}
    (h : pairs ≠ []) : encodeQueryL pairs ≠ [] := by
  cases pairs with
  | nil => exact absurd rfl h
  | cons p ps =>
    rw [encodeQueryL_eq]
    simp [encF_ne_nil]

/-! ## Every '%' in an encoded query is followed by '0' -/

/-- Scanner: every occurrence of '%' is immediately followed by '0'
(the only escape `quote_plus` produces on safe-pattern values is `%0A`). -/
def percNext0 : List Char → Bool
  | [] => true
  | [c] => !(c == '%')
  | c :: d :: rest =>
    if c = '%' then (if d = '0' then percNext0 rest else false)
    else percNext0 (d :: rest)

theorem percNext0_cons_ne {c : Char} {l : List Char} (hc : c ≠ '%') :
    percNext0 (c :: l) = percNext0 l := by
  cases l with
  | nil =>
    show (!(c == '%')) = true
    simp [hc]
  | cons d rest =>
    show (if c = '%' then _ else percNext0 (d :: rest)) = _
    rw [if_neg hc]

theorem percNext0_pct_inv {rest : List Char} (h : percNext0 ('%' :: rest) = true) :
    ∃ rest2, rest = '0' :: rest2 ∧ percNext0 rest2 = true := by
  cases rest with
  | nil => exact absurd h (by decide)
  | cons c rest2 =>
    by_cases hc : c = '0'
    · subst hc
      refine ⟨rest2, rfl, ?_⟩
      have e : percNext0 ('%' :: '0' :: rest2) = percNext0 rest2 := rfl
      rw [← e]
      exact h
    · exfalso
      have e : percNext0 ('%' :: c :: rest2) =
          (if c = '0' then percNext0 rest2 else false) := by
        show (if ('%' : Char) = '%' then _ else _) = _
        rw [if_pos rfl]
      rw [e, if_neg hc] at h
      exact absurd h (by simp)

theorem percNext0_pct0 (rest : List Char) :
    percNext0 ('%' :: '0' :: rest) = percNext0 rest := rfl

theorem perc_no_sub {B : List Char} (hp : percNext0 B = true)
    {c : Char} (hc : c ≠ '0') : ¬ (['%', c] <:+: B) := by
  induction B with
  | nil => intro hinf; exact absurd (List.eq_nil_of_infix_nil hinf) (by simp)
  | cons b B' ih =>
    intro hinf
    rcases hinf with ⟨s, t, hst⟩
    cases s with
    | nil =>
      simp only [List.nil_append] at hst
      have hb : b = '%' := by
        have := congrArg (fun l => l.head?) hst
        simpa using this.symm
      have ht : B' = c :: t := by
        have := congrArg (fun l => l.tail) hst
        simpa using this.symm
      subst hb
      rcases percNext0_pct_inv hp with ⟨r2, hr2, _⟩
      rw [ht] at hr2
      injection hr2 with h1 _
      exact hc h1
    | cons s0 s' =>
      injection hst with h1 h2
      have hp' : percNext0 B' = true := by
        by_cases hb : b = '%'
        · subst hb
          rcases percNext0_pct_inv hp with ⟨r2, hr2, hp2⟩
          rw [hr2, percNext0_cons_ne (by decide)]
          exact hp2
        · rw [percNext0_cons_ne hb] at hp
          exact hp
      exact ih hp' ⟨s', t, h2⟩

theorem percNext0_append_safe {x : List Char} (y : List Char)
    (hx : ∀ c ∈ x, c ≠ '%') : percNext0 (x ++ y) = percNext0 y := by
  induction x with
  | nil => rfl
  | cons c x' ih =>
    rw [List.cons_append, percNext0_cons_ne (hx c (List.mem_cons_self c x'))]
    exact ih fun a ha => hx a (List.mem_cons_of_mem c ha)

theorem percNext0_encF {kv : List Char × List Char} (y : List Char)
    (hk : ∀ c ∈ kv.1, safeChar c = true) (hv : matchSafeVal kv.2 = true) :
    percNext0 (encF kv ++ y) = percNext0 y := by
  unfold encF
  rw [List.append_assoc, percNext0_append_safe _ (by
    intro c hc
    rw [quotePlusL_safe hk] at hc
    exact safeChar_ne_pct (hk c hc))]
  rw [List.cons_append, percNext0_cons_ne (by decide)]
  rcases quotePlus_shape hv with ⟨heq, hsafe⟩ | ⟨core, hcore, heq, hsafe⟩
  · rw [heq]
    exact percNext0_append_safe y fun c hc => safeChar_ne_pct (hsafe c hc)
  · rw [heq, List.append_assoc, percNext0_append_safe _
      (fun c hc => safeChar_ne_pct (hsafe c hc))]
    rw [show ['%', '0', 'A'] ++ y = '%' :: '0' :: 'A' :: y from rfl,
      percNext0_pct0, percNext0_cons_ne (by decide)]

theorem percNext0_encodeQueryL {pairs : List (List Char × List Char)}
    (hg : ∀ kv ∈ pairs, (∀ c ∈ kv.1, safeChar c = true) ∧ matchSafeVal kv.2 = true) :
    percNext0 (encodeQueryL pairs) = true := by
  have main : ∀ (qs : List (List Char × List Char)) (q : List Char × List Char),
      (∀ kv ∈ q :: qs, (∀ c ∈ kv.1, safeChar c = true) ∧ matchSafeVal kv.2 = true) →
      ∀ y, percNext0 (encodeQueryL (q :: qs) ++ y) = percNext0 y := by
    intro qs
    induction qs with
    | nil =>
      intro q hq y
      rw [encodeQueryL_eq]
      show percNext0 ((encF q ++ []) ++ y) = percNext0 y
      rw [List.append_nil]
      exact percNext0_encF y (hq q (List.mem_cons_self q [])).1 (hq q (List.mem_cons_self q [])).2
    | cons r rs ih =>
      intro q hq y
      rw [encodeQueryL_cons₂, List.append_assoc, List.cons_append]
      rw [percNext0_encF _ (hq q (List.mem_cons_self q (r :: rs))).1
        (hq q (List.mem_cons_self q (r :: rs))).2]
      rw [percNext0_cons_ne (by decide)]
      exact ih r (fun kv hkv => hq kv (List.mem_cons_of_mem q hkv)) y
  cases pairs with
  | nil => rfl
  | cons p ps =>
    have := main ps p hg []
    rw [List.append_nil] at this
    rw [this]
    rfl

/-! ## Lower-casing preserves the encoded-query structure -/

theorem lowerAscii_toNat (c : Char) :
    (lowerAscii c).toNat = if 65 ≤ c.toNat ∧ c.toNat ≤ 90 then c.toNat + 32 else c.toNat := by
  unfold lowerAscii
  split
  · next h =>
    simp only [Bool.and_eq_true, decide_eq_true_eq] at h
    rw [toNat_ofNat_lt (by omega), if_pos (by omega)]
  · next h =>
    simp only [Bool.and_eq_true, decide_eq_true_eq] at h
    rw [if_neg (by omega)]

theorem lowerAscii_qalpha {c : Char} (h : qalpha c = true) :
    qalpha (lowerAscii c) = true := by
  have hn := qalpha_toNat h
  have ht := lowerAscii_toNat c
  simp only [qalpha, safeChar, isAsciiAlpha, isAsciiDigit, Bool.or_eq_true,
    Bool.and_eq_true, decide_eq_true_eq, char_eq_iff_toNat]
  have e1 : ('%' : Char).toNat = 37 := rfl
  have e2 : ('=' : Char).toNat = 61 := rfl
  have e3 : ('&' : Char).toNat = 38 := rfl
  rw [e1, e2, e3]
  split at ht <;> omega

theorem lowerAscii_eq_iff {c : Char} {d : Char}
    (hd : d.toNat < 65 ∨ 90 < d.toNat) (hd2 : ¬(97 ≤ d.toNat ∧ d.toNat ≤ 122)) :
    lowerAscii c = d ↔ c = d := by
  have ht := lowerAscii_toNat c
  rw [char_eq_iff_toNat, char_eq_iff_toNat]
  split at ht <;> omega

theorem percNext0_map_lower {Q : List Char} (h : percNext0 Q = true) :
    percNext0 (pyLowerL Q) = true := by
  induction Q with
  | nil => rfl
  | cons c rest ih =>
    by_cases hc : c = '%'
    · subst hc
      rcases percNext0_pct_inv h with ⟨r2, hr2, hp2⟩
      subst hr2
      show percNext0 (lowerAscii '%' :: lowerAscii '0' :: pyLowerL r2) = true
      rw [show lowerAscii '%' = '%' from rfl, show lowerAscii '0' = '0' from rfl,
        percNext0_pct0]
      have := ih (by rw [percNext0_cons_ne (by decide)]; exact hp2)
      rw [show pyLowerL ('0' :: r2) = '0' :: pyLowerL r2 from rfl,
        percNext0_cons_ne (by decide)] at this
      exact this
    · rw [percNext0_cons_ne hc] at h
      show percNext0 (lowerAscii c :: pyLowerL rest) = true
      rw [percNext0_cons_ne (fun he => hc ((lowerAscii_eq_iff (by decide) (by decide)).mp he))]
      exact ih h

theorem pyLowerL_append (a b : List Char) :
    pyLowerL (a ++ b) = pyLowerL a ++ pyLowerL b := by
  unfold pyLowerL
  rw [List.map_append]

/-! ## A string with no whitespace is its own strip -/

theorem dropWhile_eq_self_of {p : Char → Bool} {l : List Char}
    (h : ∀ c ∈ l, p c = false) : l.dropWhile p = l := by
  cases l with
  | nil => rfl
  | cons c rest =>
    rw [List.dropWhile_cons, if_neg (by rw [h c (List.mem_cons_self c rest)]; simp)]

theorem trimL_eq_self {l : List Char} (h : ∀ c ∈ l, pyIsSpace c = false) :
    trimL l = l := by
  unfold trimL dropTrail
  rw [dropWhile_eq_self_of h, dropWhile_eq_self_of (fun c hc => h c (by
    rw [List.mem_reverse] at hc; exact hc)), List.reverse_reverse]

theorem qalpha_not_space {c : Char} (h : qalpha c = true) : pyIsSpace c = false := by
  have hn := qalpha_toNat h
  simp only [pyIsSpace, Bool.or_eq_false_iff, Bool.and_eq_false_iff,
    decide_eq_false_iff_not]
  omega

/-! ## No malicious pattern occurs in a canonical URL -/

theorem infix_append_split {t A B : List Char} (h : t <:+: A ++ B) :
    t <:+: A ∨ t <:+: B ∨
    ∃ i, 0 < i ∧ i < t.length ∧ List.IsSuffix (t.take i) A ∧ List.IsPrefix (t.drop i) B := by
  obtain ⟨s, u, hsu⟩ := h
  have htake : (A ++ B).take A.length = A := by
    rw [List.take_append_eq_append_take, List.take_length, Nat.sub_self, List.take_zero,
      List.append_nil]
  have hdrop : (A ++ B).drop A.length = B := by
    rw [List.drop_append_eq_append_drop, List.drop_length, Nat.sub_self, List.drop_zero,
      List.nil_append]
  by_cases h1 : s.length + t.length ≤ A.length
  · left
    have hA := htake
    rw [← hsu, List.take_append_eq_append_take,
      List.take_of_length_le (by rw [List.length_append]; omega),
      List.length_append] at hA
    exact ⟨s, u.take (A.length - (s.length + t.length)), hA⟩
  · by_cases h2 : A.length ≤ s.length
    · right; left
      have hB := hdrop
      rw [← hsu, List.append_assoc, List.drop_append_eq_append_drop,
        show A.length - s.length = 0 by omega, List.drop_zero,
        ← List.append_assoc] at hB
      exact ⟨s.drop A.length, u, hB⟩
    · right; right
      push_neg at h1 h2
      refine ⟨A.length - s.length, by omega, by omega, ?_, ?_⟩
      · have hA := htake
        rw [← hsu, List.append_assoc, List.take_append_eq_append_take,
          List.take_of_length_le (by omega), List.take_append_eq_append_take,
          show A.length - s.length - t.length = 0 by omega, List.take_zero,
          List.append_nil] at hA
        exact ⟨s, hA⟩
      · have hB := hdrop
        rw [← hsu, List.append_assoc, List.drop_append_eq_append_drop,
          List.drop_eq_nil_of_le (by omega), List.nil_append,
          List.drop_append_eq_append_drop,
          show A.length - s.length - t.length = 0 by omega, List.drop_zero] at hB
        exact ⟨u, hB⟩

theorem mem_of_getLast? {l : List Char} {a : Char} (h : l.getLast? = some a) : a ∈ l := by
  induction l with
  | nil => simp at h
  | cons c rest ih =>
    cases rest with
    | nil =>
      simp only [List.getLast?_singleton, Option.some.injEq] at h
      rw [← h]
      exact List.mem_cons_self _ _
    | cons d r =>
      rw [List.getLast?_cons_cons] at h
      exact List.mem_cons_of_mem c (ih h)

theorem no_mal_infix {B : List Char} (hB : ∀ c ∈ B, qalpha c = true)
    (hp : percNext0 B = true) :
    ∀ t ∈ MALICIOUS_PATTERNS, ¬ t <:+: ("https://www.youtube.com/watch?".data ++ B) := by
  intro t ht hinf
  rcases infix_append_split hinf with h1 | h1 | ⟨i, hi0, hilen, hsuf, _⟩
  · fin_cases ht <;> exact absurd h1 (by decide)
  · fin_cases ht <;> first
      | exact absurd (hB '.' (h1.subset (by decide))) (by decide)
      | exact absurd (hB '<' (h1.subset (by decide))) (by decide)
      | exact absurd (hB ':' (h1.subset (by decide))) (by decide)
      | exact perc_no_sub hp (show ('2' : Char) ≠ '0' by decide)
          (List.IsInfix.trans (by decide) h1)
  · have hQm : '?' ∈ t := by
      have hne : t.take i ≠ [] := by
        cases i with
        | zero => omega
        | succ j =>
          cases t with
          | nil => simp at hilen
          | cons c r => simp
      obtain ⟨w, hw⟩ := hsuf
      have hlast := congrArg List.getLast? hw
      rw [List.getLast?_append_of_ne_nil w hne] at hlast
      have hP : ("https://www.youtube.com/watch?".data).getLast? = some '?' := by decide
      rw [hP] at hlast
      exact List.take_subset i t (mem_of_getLast? hlast)
    fin_cases ht <;> exact absurd hQm (by decide)

theorem find_mal_canon {B : List Char} (hB : ∀ c ∈ B, qalpha c = true)
    (hp : percNext0 B = true) :
    (MALICIOUS_PATTERNS.find? fun t =>
      decide (t <:+: pyLowerL ("https://www.youtube.com/watch?".data ++ B))) = none := by
  rw [List.find?_eq_none]
  intro t ht
  simp only [decide_eq_true_eq]
  rw [pyLowerL_append,
    show pyLowerL "https://www.youtube.com/watch?".data =
      "https://www.youtube.com/watch?".data from by decide]
  exact no_mal_infix
    (fun c hc => by
      rcases List.mem_map.mp hc with ⟨d, hd, hdc⟩
      rw [← hdc]
      exact lowerAscii_qalpha (hB d hd))
    (percNext0_map_lower hp) t ht

/-! ## Parsing a canonical URL -/

theorem takeWhile_all {p : Char → Bool} {l : List Char}
    (h : ∀ c ∈ l, p c = true) : l.takeWhile p = l := by
  induction l with
  | nil => rfl
  | cons c rest ih =>
    rw [List.takeWhile_cons, if_pos (h c (List.mem_cons_self c rest))]
    rw [ih fun a ha => h a (List.mem_cons_of_mem c ha)]

theorem dropWhile_all {p : Char → Bool} {l : List Char}
    (h : ∀ c ∈ l, p c = true) : l.dropWhile p = [] := by
  induction l with
  | nil => rfl
  | cons c rest ih =>
    rw [List.dropWhile_cons, if_pos (h c (List.mem_cons_self c rest))]
    exact ih fun a ha => h a (List.mem_cons_of_mem c ha)

theorem takeWhile_mid {p : Char → Bool} {a : List Char} {b : Char} (l : List Char)
    (ha : ∀ c ∈ a, p c = true) (hb : p b = false) :
    (a ++ b :: l).takeWhile p = a := by
  induction a with
  | nil =>
    rw [List.nil_append, List.takeWhile_cons, if_neg (by rw [hb]; simp)]
  | cons c rest ih =>
    rw [List.cons_append, List.takeWhile_cons, if_pos (ha c (List.mem_cons_self c rest))]
    rw [ih fun x hx => ha x (List.mem_cons_of_mem c hx)]

theorem dropWhile_mid {p : Char → Bool} {a : List Char} {b : Char} (l : List Char)
    (ha : ∀ c ∈ a, p c = true) (hb : p b = false) :
    (a ++ b :: l).dropWhile p = b :: l := by
  induction a with
  | nil =>
    rw [List.nil_append, List.dropWhile_cons, if_neg (by rw [hb]; simp)]
  | cons c rest ih =>
    rw [List.cons_append, List.dropWhile_cons, if_pos (ha c (List.mem_cons_self c rest))]
    exact ih fun x hx => ha x (List.mem_cons_of_mem c hx)

theorem findColonSplit_append {a : List Char} (b : List Char)
    (ha : ∀ c ∈ a, c ≠ ':') : findColonSplit (a ++ ':' :: b) = some (a, b) := by
  induction a with
  | nil =>
    rw [List.nil_append, findColonSplit, if_pos rfl]
  | cons c rest ih =>
    rw [List.cons_append, findColonSplit,
      if_neg (ha c (List.mem_cons_self c rest)),
      ih fun x hx => ha x (List.mem_cons_of_mem c hx)]
    rfl

theorem splitScheme_https (b : List Char) :
    splitScheme ("https".data ++ ':' :: b) = ("https".data, b) := by
  unfold splitScheme
  rw [findColonSplit_append b (by decide)]
  show (if isAsciiAlpha 'h' && List.all _ isSchemeChar then _ else _) = _
  rw [if_pos (by decide)]
  rfl

theorem isPrefixOf_cons_ne {a b : Char} (h : a ≠ b) (as bs : List Char) :
    (a :: as).isPrefixOf (b :: bs) = false := by
  show (a == b && as.isPrefixOf bs) = false
  rw [show (a == b) = false by simp [h], Bool.false_and]

theorem isPrefixOf_self_append : ∀ (a r : List Char), a.isPrefixOf (a ++ r) = true := by
  intro a r
  induction a with
  | nil => simp [List.isPrefixOf]
  | cons c cs ih =>
    show (c == c && cs.isPrefixOf (cs ++ r)) = true
    rw [ih]
    simp

theorem splitHeadL_cons_neg {sep : List Char} {c : Char} {r : List Char}
    (h : sep.isPrefixOf (c :: r) = false) :
    splitHeadL sep (c :: r) = c :: splitHeadL sep r := by
  rw [splitHeadL]
  rw [if_neg (by simp [h])]

theorem splitHeadL_cons_pos {sep : List Char} {c : Char} {r : List Char}
    (h : sep.isPrefixOf (c :: r) = true) : splitHeadL sep (c :: r) = [] := by
  unfold splitHeadL
  rw [if_pos h]

theorem splitHead_https (r : List Char) :
    splitHeadL "://".data ("https://".data ++ r) = "https".data := by
  show splitHeadL "://".data ('h' :: 't' :: 't' :: 'p' :: 's' :: ':' :: '/' :: '/' :: r) = _
  rw [splitHeadL_cons_neg (isPrefixOf_cons_ne (by decide) _ _),
    splitHeadL_cons_neg (isPrefixOf_cons_ne (by decide) _ _),
    splitHeadL_cons_neg (isPrefixOf_cons_ne (by decide) _ _),
    splitHeadL_cons_neg (isPrefixOf_cons_ne (by decide) _ _),
    splitHeadL_cons_neg (isPrefixOf_cons_ne (by decide) _ _),
    splitHeadL_cons_pos (show ("://".data).isPrefixOf (':' :: '/' :: '/' :: r) = true from
      isPrefixOf_self_append "://".data r)]

theorem credFlag_canon (B : List Char) :
    credFlag ("https://www.youtube.com/watch?".data ++ B) = false := by
  have hform : "https://www.youtube.com/watch?".data ++ B =
      "https://".data ++ ("www.youtube.com/watch?".data ++ B) := rfl
  unfold credFlag
  rw [if_pos ⟨"https".data, "www.youtube.com/watch?".data ++ B, rfl⟩]
  rw [hform, splitHead_https]
  decide

theorem pyUrlsplit_canon {B : List Char} (hB : ∀ c ∈ B, qalpha c = true) :
    pyUrlsplit ("https://www.youtube.com/watch?".data ++ B) =
      Except.ok ⟨"https".data, "www.youtube.com".data, "/watch".data, [], B, []⟩ := by
  have hfil : ("https://www.youtube.com/watch?".data ++ B).filter
      (fun c => !(c = '\t' || c = '\r' || c = '\n')) =
      "https://www.youtube.com/watch?".data ++ B := by
    rw [List.filter_append]
    congr 1
    rw [List.filter_eq_self]
    intro c hc
    have h1 : c ≠ '\t' := qalpha_ne (hB c hc) (by decide)
    have h2 : c ≠ '\r' := qalpha_ne (hB c hc) (by decide)
    have h3 : c ≠ '\n' := qalpha_ne (hB c hc) (by decide)
    simp [h1, h2, h3]
  have hsplit2 : ("www.youtube.com/watch?".data ++ B).takeWhile
        (fun c => !isNetDelim c) = "www.youtube.com".data ∧
      ("www.youtube.com/watch?".data ++ B).dropWhile
        (fun c => !isNetDelim c) = '/' :: ("watch?".data ++ B) := by
    have hform : "www.youtube.com/watch?".data ++ B =
        "www.youtube.com".data ++ '/' :: ("watch?".data ++ B) := rfl
    rw [hform]
    exact ⟨takeWhile_mid _ (by decide) (by decide),
      dropWhile_mid _ (by decide) (by decide)⟩
  have hnohash : ∀ c ∈ "/watch?".data ++ B, (decide (c ≠ '#')) = true := by
    intro c hc
    rcases List.mem_append.mp hc with h | h
    · fin_cases h <;> decide
    · simp only [decide_eq_true_eq]
      exact qalpha_ne (hB c h) (by decide)
  have hpath : ("/watch?".data ++ B).takeWhile (fun c => decide (c ≠ '?')) =
        "/watch".data ∧
      ("/watch?".data ++ B).dropWhile (fun c => decide (c ≠ '?')) = '?' :: B := by
    have hform : "/watch?".data ++ B = "/watch".data ++ '?' :: B := rfl
    rw [hform]
    exact ⟨takeWhile_mid _ (by decide) (by decide),
      dropWhile_mid _ (by decide) (by decide)⟩
  unfold pyUrlsplit
  simp only []
  rw [hfil]
  rw [show "https://www.youtube.com/watch?".data ++ B =
    "https".data ++ ':' :: ("//www.youtube.com/watch?".data ++ B) from rfl]
  rw [splitScheme_https]
  simp only []
  rw [if_pos (show ("//www.youtube.com/watch?".data ++ B).take 2 = ['/', '/'] from rfl)]
  simp only []
  rw [show ("//www.youtube.com/watch?".data ++ B).drop 2 =
    "www.youtube.com/watch?".data ++ B from rfl]
  rw [hsplit2.1, hsplit2.2]
  rw [if_neg (by decide)]
  rw [show ('/' : Char) :: ("watch?".data ++ B) = "/watch?".data ++ B from rfl]
  rw [takeWhile_all hnohash, dropWhile_all hnohash]
  rw [hpath.1, hpath.2]
  rfl

theorem pyUrlparseL_canon {B : List Char} (hB : ∀ c ∈ B, qalpha c = true) :
    pyUrlparseL ("https://www.youtube.com/watch?".data ++ B) =
      Except.ok ⟨"https".data, "www.youtube.com".data, "/watch".data, [], B, []⟩ := by
  unfold pyUrlparseL
  rw [pyUrlsplit_canon hB]
  rfl

theorem unparse_canon {Q : List Char} (hQ : Q ≠ []) :
    pyUrlunparse "https".data "www.youtube.com".data "/watch".data [] Q [] =
      "https://www.youtube.com/watch?".data ++ Q := by
  unfold pyUrlunparse unsplitL
  simp only []
  rw [if_pos hQ]
  rfl

/-! ## The canonical pair list and its properties -/

/-- The sorted, filtered, `v`-forced pair list of `buildCanonical`. -/
def canonPairs (vid q : List Char) : List (List Char × List Char) :=
  List.insertionSort pairLe (dictInsert (keptParams q) "v".data vid)

theorem buildCanonical_eq (vid q : List Char) :
    buildCanonical vid q = pyUrlunparse "https".data "www.youtube.com".data
      "/watch".data [] (encodeQueryL (canonPairs vid q)) [] := rfl

/-- The invariant of the pair list from which a canonical URL is built. -/
def goodPairs (vid : List Char) (pairs : List (List Char × List Char)) : Prop :=
  matchVideoId vid = true ∧
  (∀ kv ∈ pairs, (∀ c ∈ kv.1, safeChar c = true) ∧ kv.1 ∈ ALLOWED_QUERY_PARAMS ∧
    matchSafeVal kv.2 = true) ∧
  (pairs.map Prod.fst).Nodup ∧ ("v".data, vid) ∈ pairs ∧ List.Sorted pairLe pairs

theorem canonPairs_good {vid : List Char} (hm : matchVideoId vid = true) (q : List Char) :
    goodPairs vid (canonPairs vid q) := by
  have hnd : ((dictInsert (keptParams q) "v".data vid).map Prod.fst).Nodup :=
    dictInsert_keys_nodup (keptParams_keys_nodup q)
  have hperm := List.perm_insertionSort pairLe (dictInsert (keptParams q) "v".data vid)
  refine ⟨hm, ?_, ?_, ?_, ?_⟩
  · intro kv hkv
    have hkv' := hperm.mem_iff.mp hkv
    obtain ⟨k, w⟩ := kv
    rcases (mem_dictInsert (keptParams_keys_nodup q)).mp hkv' with ⟨h1, h2⟩ | ⟨h1, h2⟩
    · subst h1
      subst h2
      exact ⟨allowed_keys_safe "v".data (by decide),
        show "v".data ∈ ALLOWED_QUERY_PARAMS from by decide, matchVideoId_safeVal hm⟩
    · rcases mem_keptParams.mp h2 with ⟨ha, hs, _⟩
      exact ⟨allowed_keys_safe k ha, ha, hs⟩
  · exact ((hperm.map Prod.fst).nodup_iff).mpr hnd
  · exact hperm.mem_iff.mpr (dictInsert_mem_self _ _ _)
  · exact List.sorted_insertionSort pairLe _

theorem goodPairs_enc {vid : List Char} {pairs : List (List Char × List Char)}
    (hg : goodPairs vid pairs) :
    ∀ kv ∈ pairs, (∀ c ∈ kv.1, safeChar c = true) ∧ matchSafeVal kv.2 = true :=
  fun kv hkv => ⟨(hg.2.1 kv hkv).1, (hg.2.1 kv hkv).2.2⟩

theorem filterMap_keepF_map {pairs : List (List Char × List Char)}
    (hg : ∀ kv ∈ pairs, kv.1 ∈ ALLOWED_QUERY_PARAMS ∧ matchSafeVal kv.2 = true) :
    (pairs.map fun kv => (kv.1, [kv.2])).filterMap keepF = pairs := by
  induction pairs with
  | nil => rfl
  | cons p ps ih =>
    rw [List.map_cons, List.filterMap_cons]
    rw [show keepF (p.1, [p.2]) = some (p.1, p.2) by
      simp only [keepF]
      rw [if_pos ⟨(hg p (List.mem_cons_self p ps)).1, (hg p (List.mem_cons_self p ps)).2⟩]]
    rw [ih fun kv hkv => hg kv (List.mem_cons_of_mem p hkv)]

theorem keptParams_enc {vid : List Char} {pairs : List (List Char × List Char)}
    (hg : goodPairs vid pairs) : keptParams (encodeQueryL pairs) = pairs := by
  rw [keptParams_eq_filterMap, parseQs_encode (goodPairs_enc hg) hg.2.2.1,
    filterMap_keepF_map fun kv hkv => ⟨(hg.2.1 kv hkv).2.1, (hg.2.1 kv hkv).2.2⟩]

theorem alookup_canon {vid : List Char} {pairs : List (List Char × List Char)}
    (hg : goodPairs vid pairs) :
    alookup (parseQs (encodeQueryL pairs)) "v".data = some [vid] := by
  rw [parseQs_encode (goodPairs_enc hg) hg.2.2.1]
  have hmem : ("v".data, [vid]) ∈ pairs.map (fun kv => (kv.1, [kv.2])) :=
    List.mem_map.mpr ⟨("v".data, vid), hg.2.2.2.1, rfl⟩
  have hnd : ((pairs.map fun kv => (kv.1, [kv.2])).map Prod.fst).Nodup := by
    rw [List.map_map]
    exact hg.2.2.1
  exact alookup_eq_some_of_mem hnd hmem

theorem buildCanonical_fixed {vid : List Char} {pairs : List (List Char × List Char)}
    (hg : goodPairs vid pairs) :
    buildCanonical vid (encodeQueryL pairs) =
      "https://www.youtube.com/watch?".data ++ encodeQueryL pairs := by
  unfold buildCanonical
  simp only []
  rw [keptParams_enc hg, dictInsert_self hg.2.2.1 hg.2.2.2.1,
    List.Sorted.insertionSort_eq hg.2.2.2.2,
    unparse_canon (encodeQueryL_ne_nil (List.ne_nil_of_mem hg.2.2.2.1))]

theorem extractVid_canon {vid : List Char} {pairs : List (List Char × List Char)}
    (hg : goodPairs vid pairs) :
    extractVid "www.youtube.com".data
      ⟨"https".data, "www.youtube.com".data, "/watch".data, [],
        encodeQueryL pairs, []⟩ = Except.ok vid := by
  unfold extractVid
  rw [if_neg (by decide)]
  rw [if_pos (show ("/watch".data).isPrefixOf
    (PyUrl.path ⟨"https".data, "www.youtube.com".data, "/watch".data, [],
      encodeQueryL pairs, []⟩) = true from rfl)]
  rw [show PyUrl.query ⟨"https".data, "www.youtube.com".data, "/watch".data, [],
    encodeQueryL pairs, []⟩ = encodeQueryL pairs from rfl]
  rw [alookup_canon hg]

theorem validate_canonical {vid : List Char} {pairs : List (List Char × List Char)}
    (hg : goodPairs vid pairs) :
    validate ⟨"https://www.youtube.com/watch?".data ++ encodeQueryL pairs⟩ =
      Except.ok ⟨"https://www.youtube.com/watch?".data ++ encodeQueryL pairs⟩ := by
  have henc := goodPairs_enc hg
  have hQa : ∀ c ∈ encodeQueryL pairs, qalpha c = true := encodeQueryL_alpha henc
  have hQp : percNext0 (encodeQueryL pairs) = true := percNext0_encodeQueryL henc
  have hvne : vid ≠ [] := matchSafeVal_ne_nil (matchVideoId_safeVal hg.1)
  have hdata : (⟨"https://www.youtube.com/watch?".data ++ encodeQueryL pairs⟩ : String).data =
      "https://www.youtube.com/watch?".data ++ encodeQueryL pairs := rfl
  have htrim : trimL ((⟨"https://www.youtube.com/watch?".data ++
      encodeQueryL pairs⟩ : String).data) =
      "https://www.youtube.com/watch?".data ++ encodeQueryL pairs := by
    rw [hdata]
    exact trimL_eq_self (by
      intro c hc
      rcases List.mem_append.mp hc with h | h
      · fin_cases h <;> decide
      · exact qalpha_not_space (hQa c h))
  have hok := validate_extract_ok
    ⟨"https://www.youtube.com/watch?".data ++ encodeQueryL pairs⟩
    ⟨"https".data, "www.youtube.com".data, "/watch".data, [], encodeQueryL pairs, []⟩
    vid
    (by rw [hdata]; simp)
    (by rw [htrim]; exact find_mal_canon hQa hQp)
    (by rw [htrim]; exact credFlag_canon _)
    (by rw [htrim]; exact pyUrlparseL_canon hQa)
    rfl
    (show pyLowerL "www.youtube.com".data ∈ ALLOWED_YOUTUBE_DOMAINS from by decide)
    (show extractVid (pyLowerL "www.youtube.com".data)
        ⟨"https".data, "www.youtube.com".data, "/watch".data, [],
          encodeQueryL pairs, []⟩ = Except.ok vid from by
      rw [show pyLowerL "www.youtube.com".data = "www.youtube.com".data from by decide]
      exact extractVid_canon hg)
  rw [show PyUrl.query ⟨"https".data, "www.youtube.com".data, "/watch".data, [],
    encodeQueryL pairs, []⟩ = encodeQueryL pairs from rfl] at hok
  rw [if_neg hvne, hg.1] at hok
  rw [if_neg (show ¬((!true) = true) by simp)] at hok
  rw [buildCanonical_fixed hg] at hok
  exact hok

/-- C3: validation is idempotent — whenever `validate` succeeds, feeding the
canonical output back in succeeds and returns the same canonical string. -/
theorem C3_idempotent (x out : String) (h : validate x = Except.ok out) :
    validate out = Except.ok out := by
  obtain ⟨vid, q, hm, hout⟩ := validate_ok_inv h
  have hg := canonPairs_good hm q
  have hval := validate_canonical hg
  rw [hout, buildCanonical_eq,
    unparse_canon (encodeQueryL_ne_nil (List.ne_nil_of_mem hg.2.2.2.1))]
  exact hval

theorem C3_idempotent_witness :
    validate "https://m.youtube.com/watch?v=dQw4w9WgXcQ&t=42" =
      Except.ok "https://www.youtube.com/watch?t=42&v=dQw4w9WgXcQ" ∧
    validate "https://www.youtube.com/watch?t=42&v=dQw4w9WgXcQ" =
      Except.ok "https://www.youtube.com/watch?t=42&v=dQw4w9WgXcQ" :=
  ⟨by decide, C3_idempotent "https://m.youtube.com/watch?v=dQw4w9WgXcQ&t=42"
    "https://www.youtube.com/watch?t=42&v=dQw4w9WgXcQ" (by decide)⟩

/-- C8 (amended): on success the canonical query consists of pairs sorted by
the Python tuple order with distinct names; a pair `(k, val)` occurs exactly
when `k` is the forced `v` entry carrying the validated identifier, or `k`
is a recognized name other than `v` whose first parsed value is `val` and
`val` matches the safe-value pattern (which, via Python's `$`, also accepts
one trailing newline). -/
theorem C8_query_allowlist (s : String) (pu : PyUrl) (vid : List Char)
    (h0 : s.data ≠ [])
    (hfind : (MALICIOUS_PATTERNS.find? fun q => decide (q <:+: pyLowerL (trimL s.data))) = none)
    (hcred : credFlag (trimL s.data) = false)
    (hparse : pyUrlparseL (trimL s.data) = Except.ok pu)
    (hscheme : pu.scheme = "https".data)
    (hdom : pyLowerL pu.netloc ∈ ALLOWED_YOUTUBE_DOMAINS)
    (hvid : extractVid (pyLowerL pu.netloc) pu = Except.ok vid)
    (hm : matchVideoId vid = true) :
    ∃ pairs : List (List Char × List Char),
      validate s = Except.ok ⟨"https://www.youtube.com/watch?".data ++ encodeQueryL pairs⟩ ∧
      List.Sorted pairLe pairs ∧
      (pairs.map Prod.fst).Nodup ∧
      ∀ k val : List Char, ((k, val) ∈ pairs ↔
        (k = "v".data ∧ val = vid) ∨
        (k ≠ "v".data ∧ k ∈ ALLOWED_QUERY_PARAMS ∧ matchSafeVal val = true ∧
          ∃ rest, (k, val :: rest) ∈ parseQs pu.query)) := by
  have hg := canonPairs_good hm pu.query
  refine ⟨canonPairs vid pu.query, ?_, hg.2.2.2.2, hg.2.2.1, ?_⟩
  · have hval := (C9_stage s pu vid h0 hfind hcred hparse hscheme hdom hvid).2 hm
    rw [hval, buildCanonical_eq,
      unparse_canon (encodeQueryL_ne_nil (List.ne_nil_of_mem hg.2.2.2.1))]
  · intro k val
    unfold canonPairs
    rw [(List.perm_insertionSort pairLe _).mem_iff,
      mem_dictInsert (keptParams_keys_nodup pu.query), mem_keptParams]

theorem C8_query_allowlist_witness :
    ∃ pairs : List (List Char × List Char),
      validate "https://youtube.com/watch?v=aaaaaaaaaaa&start=5&evil=x" =
        Except.ok ⟨"https://www.youtube.com/watch?".data ++ encodeQueryL pairs⟩ ∧
      List.Sorted pairLe pairs ∧
      (pairs.map Prod.fst).Nodup ∧
      ∀ k val : List Char, ((k, val) ∈ pairs ↔
        (k = "v".data ∧ val = "aaaaaaaaaaa".data) ∨
        (k ≠ "v".data ∧ k ∈ ALLOWED_QUERY_PARAMS ∧ matchSafeVal val = true ∧
          ∃ rest, (k, val :: rest) ∈
            parseQs (PyUrl.query ⟨"https".data, "youtube.com".data, "/watch".data, [],
              "v=aaaaaaaaaaa&start=5&evil=x".data, []⟩))) :=
  C8_query_allowlist "https://youtube.com/watch?v=aaaaaaaaaaa&start=5&evil=x"
    ⟨"https".data, "youtube.com".data, "/watch".data, [],
      "v=aaaaaaaaaaa&start=5&evil=x".data, []⟩
    "aaaaaaaaaaa".data
    (by decide) (by decide) (by decide) (by decide) (by decide) (by decide)
    (by decide) (by decide)

/-- C8 (counterexample to the frozen wording): the recognized parameter `t`
with decoded first value `10\n` — which contains a newline, a character
outside `[A-Za-z0-9_-]` — is kept in the canonical output rather than
dropped, because Python's `$` matches before a trailing newline. -/
theorem C8_query_allowlist_cex :
    validate "https://www.youtube.com/watch?v=dQw4w9WgXcQ&t=10%0A" =
      Except.ok "https://www.youtube.com/watch?t=10%0A&v=dQw4w9WgXcQ" ∧
    alookup (parseQs "v=dQw4w9WgXcQ&t=10%0A".data) "t".data = some ["10\n".data] ∧
    safeChar '\n' = false :=
  ⟨by decide, by decide, by decide⟩

theorem C7_shortlink_witness :
    validate "https://youtu.be/x/y" = Except.error VErr.badShortPath :=
  (C7_shortlink.1 "https://youtu.be/x/y"
    ⟨"https".data, "youtu.be".data, "/x/y".data, [], [], []⟩
    (by decide) (by decide) (by decide) (by decide) (by decide) (by decide)).2.1
    (by decide)

/-- C10: `validate` strips leading and trailing whitespace first, so for any
string whose stripped form is non-empty, validation of the string and of its
stripped form agree exactly. -/
theorem C10_strip_equivalence (s : String) (h : pyStrip s ≠ "") :
    validate s = validate (pyStrip s) := (validate_pyStrip s h).symm

theorem C10_strip_equivalence_witness :
    pyStrip "  https://youtu.be/dQw4w9WgXcQ " ≠ "" ∧
    validate "  https://youtu.be/dQw4w9WgXcQ " =
      validate (pyStrip "  https://youtu.be/dQw4w9WgXcQ ") :=
  ⟨by decide, C10_strip_equivalence "  https://youtu.be/dQw4w9WgXcQ " (by decide)⟩
